import Mathlib

/-!
Verification development for the osm-API/ai-sdk-provider streaming
normalization pipeline.

The definitions below are a shallow embedding of the TypeScript source:

* `computeTokenUsage` / `emptyUsage` embed `src/utils/compute-token-usage.ts`.
* The non-streaming mapper (`nsReasoningContent`, `nsContent`,
  `nsEffectiveFinishReason`) embeds the body of
  `OsmChatLanguageModel.doGenerate`.
* The streaming transformer (`processChunk`, `flushStep`, `runStream` and
  their stage functions) embeds the `TransformStream` built in
  `OsmChatLanguageModel.doStream`, including its `flush` step.

JavaScript conventions that matter for fidelity:

* optional / nullable fields are `Option` values;
* the JS truthiness test on a string (`if (s)`) is `jsTruthy`;
* JS `a || b` on possibly-absent strings is `jsOrOpt` / `jsOrStr`;
* machine numbers in token accounting are embedded as `Int` (token counters
  are integers in the wire format; JS subtraction on them is exact);
* the external `generateId()` id generator is modelled by the constant
  `generateId` (claims do not depend on freshness of generated ids);
* the external `isParsableJson` helper from the provider-utils library is
  abstracted as the predicate `jsonOk` carried in `ModelCtx`: every theorem
  holds for an arbitrary JSON-validity predicate.
-/

/-- JS truthiness of a possibly-absent string: present and non-empty. -/
def jsTruthy : Option String → Bool
  | some s => !(s = "")
  | none => false

/-- JS `a || b` for possibly-absent strings (empty string is falsy). -/
def jsOrOpt (a b : Option String) : Option String :=
  match a with
  | some s => if s = "" then b else some s
  | none => b

/-- JS `a || b` where `b` is a present string (used for `x || generateId()`). -/
def jsOrStr (a : Option String) (b : String) : String :=
  match a with
  | some s => if s = "" then b else s
  | none => b

/-- Models the external `generateId()` helper from the provider-utils
library: an opaque fresh-id source.  Claims in this development never depend
on the freshness of generated ids, so a constant suffices. -/
def generateId : String := "gen-id"

/-! ## Usage normalizer (`src/utils/compute-token-usage.ts`) -/

/-- `prompt_tokens_details` in the vendor usage object. -/
structure PromptTokensDetails where
  cached_tokens : Option Int
  cache_write_tokens : Option Int
  deriving Repr, DecidableEq

/-- `completion_tokens_details` in the vendor usage object. -/
structure CompletionTokensDetails where
  reasoning_tokens : Option Int
  deriving Repr, DecidableEq

/-- Vendor usage object (`UsageData` in `compute-token-usage.ts`).  The
`cost` / `cost_details` float fields only feed the provider-metadata
accounting and are not modelled. -/
structure UsageData where
  prompt_tokens : Option Int
  completion_tokens : Option Int
  prompt_tokens_details : Option PromptTokensDetails
  completion_tokens_details : Option CompletionTokensDetails
  total_tokens : Option Int
  deriving Repr, DecidableEq

/-- Normalized `inputTokens` record. -/
structure InputTokens where
  total : Option Int
  noCache : Option Int
  cacheRead : Option Int
  cacheWrite : Option Int
  deriving Repr, DecidableEq

/-- Normalized `outputTokens` record. -/
structure OutputTokens where
  total : Option Int
  text : Option Int
  reasoning : Option Int
  deriving Repr, DecidableEq

/-- Normalized usage record (`LanguageModelV3Usage`). -/
structure Usage where
  inputTokens : InputTokens
  outputTokens : OutputTokens
  raw : Option UsageData
  deriving Repr, DecidableEq

/-- Embeds `computeTokenUsage` from `src/utils/compute-token-usage.ts`. -/
def computeTokenUsage (usage : UsageData) : Usage :=
  let promptTokens : Int := usage.prompt_tokens.getD 0
  let completionTokens : Int := usage.completion_tokens.getD 0
  let cacheReadTokens : Int :=
    (usage.prompt_tokens_details.bind (fun d => d.cached_tokens)).getD 0
  let cacheWriteTokens : Option Int :=
    usage.prompt_tokens_details.bind (fun d => d.cache_write_tokens)
  let reasoningTokens : Int :=
    (usage.completion_tokens_details.bind (fun d => d.reasoning_tokens)).getD 0
  { inputTokens :=
      { total := some promptTokens
        noCache := some (promptTokens - cacheReadTokens)
        cacheRead := some cacheReadTokens
        cacheWrite := cacheWriteTokens }
    outputTokens :=
      { total := some completionTokens
        text := some (completionTokens - reasoningTokens)
        reasoning := some reasoningTokens }
    raw := some usage }

/-- Embeds `emptyUsage` from `src/utils/compute-token-usage.ts`. -/
def emptyUsage : Usage :=
  { inputTokens :=
      { total := some 0, noCache := none, cacheRead := none, cacheWrite := none }
    outputTokens := { total := some 0, text := none, reasoning := none }
    raw := none }

/-! ## Finish reasons

`mapOsmFinishReason` and `createFinishReason` live in
`src/utils/map-finish-reason.ts`, which is not part of the provided sources
(only its call sites are).  They are modelled from the spec below. -/

/-- The normalized finish-reason enumeration (spec section 4.2). -/
inductive UnifiedFinishReason
  | stop
  | length
  | contentFilter
  | toolCalls
  | error
  | other
  deriving Repr, DecidableEq

/-- Raw-value preserving finish reason wrapper. -/
structure FinishReason where
  unified : UnifiedFinishReason
  raw : Option String
  deriving Repr, DecidableEq

/-- Modelled from the spec: `createFinishReason` from
`src/utils/map-finish-reason.ts` (missing from the provided sources) wraps a
unified reason together with the preserved raw vendor value. -/
def createFinishReason (unified : UnifiedFinishReason) (raw : Option String) :
    FinishReason :=
  { unified := unified, raw := raw }

/-- Modelled from the spec: `mapOsmFinishReason` from
`src/utils/map-finish-reason.ts` (missing from the provided sources) is a
deterministic lookup from the vendor finish-reason string to the closed
unified set, mapping unknown strings to `other` and preserving the raw
value. -/
def mapOsmFinishReason (raw : Option String) : FinishReason :=
  { unified :=
      match raw with
      | none => UnifiedFinishReason.other
      | some s =>
        if s = "stop" then UnifiedFinishReason.stop
        else if s = "length" then UnifiedFinishReason.length
        else if s = "tool_calls" then UnifiedFinishReason.toolCalls
        else if s = "content_filter" then UnifiedFinishReason.contentFilter
        else if s = "error" then UnifiedFinishReason.error
        else UnifiedFinishReason.other
    raw := raw }

/-! ## Reasoning details -/

/-- The reasoning-detail tagged union (`ReasoningDetailUnion` from
`src/schemas/reasoning-details`, reconstructed from its uses in the chat
model: `Text {text?, signature?, format?}`, `Summary {summary?}`,
`Encrypted {data?}`). -/
inductive ReasoningDetail
  | text (text : Option String) (signature : Option String)
      (format : Option String)
  | summary (summary : Option String)
  | encrypted (data : Option String)
  deriving Repr, DecidableEq

/-- `d.type === ReasoningDetailType.Encrypted && d.data` (truthy data). -/
def isEncryptedWithData : ReasoningDetail → Bool
  | ReasoningDetail.encrypted d => jsTruthy d
  | _ => false

/-- One step of the reasoning-detail accumulation loop in
`doStream.transform` (the `for (const detail of delta.reasoning_details)`
merge loop): a `Text` detail merges into a trailing `Text` entry
(concatenating `text` with JS `(a || '') + (b || '')` and combining
`signature` / `format` with JS `||`); anything else is pushed as-is. -/
def accumulateDetail (acc : List ReasoningDetail) (d : ReasoningDetail) :
    List ReasoningDetail :=
  match d with
  | ReasoningDetail.text t sig fmt =>
    match acc.getLast? with
    | some (ReasoningDetail.text lt lsig lfmt) =>
      acc.dropLast ++
        [ReasoningDetail.text (some (lt.getD "" ++ t.getD ""))
          (jsOrOpt lsig sig) (jsOrOpt lfmt fmt)]
    | _ => acc ++ [ReasoningDetail.text t sig fmt]
  | other => acc ++ [other]

/-- The whole accumulation loop over a delta's `reasoning_details` list. -/
def accumulateDetails (acc : List ReasoningDetail)
    (ds : List ReasoningDetail) : List ReasoningDetail :=
  ds.foldl accumulateDetail acc

/-! ## Non-streaming response mapper (`OsmChatLanguageModel.doGenerate`)

Only the pure response-to-content mapping is embedded; HTTP transport,
schema validation and the error/no-choice rejections are outside the
claims under verification. -/

/-- `tool_call.function` in a complete (non-streaming) response. -/
structure NSToolCallFunction where
  name : String
  arguments : Option String
  deriving Repr, DecidableEq

/-- A complete tool call in a non-streaming response message. -/
structure NSToolCall where
  id : Option String
  function : NSToolCallFunction
  deriving Repr, DecidableEq

/-- Message annotations: URL citations become source blocks, file
annotations are collected into provider metadata. -/
inductive NSAnnot
  | urlCitation (url : String) (title : Option String)
  | fileAnn
  deriving Repr, DecidableEq

/-- `choice.message` of a non-streaming response. -/
structure NSMessage where
  content : Option String
  reasoning : Option String
  reasoning_details : Option (List ReasoningDetail)
  tool_calls : Option (List NSToolCall)
  images : Option (List String)
  annotations : Option (List NSAnnot)
  deriving Repr, DecidableEq

/-- Normalized content blocks produced by `doGenerate`
(`LanguageModelV3Content`).  Reasoning and tool-call blocks carry the
`osm.reasoning_details` provider metadata when present. -/
inductive ContentBlock
  | reasoning (text : String) (md : Option (List ReasoningDetail))
  | text (t : String)
  | toolCall (toolCallId : String) (toolName : String) (input : String)
      (md : Option (List ReasoningDetail))
  | file (url : String)
  | source (url : String) (title : String)
  deriving Repr, DecidableEq

/-- The per-detail case of the `reasoningDetails.map(...)` switch in
`doGenerate`: each variant yields a reasoning block when its payload is
truthy (the `Encrypted` variant surfaces the literal placeholder
`[REDACTED]`), otherwise nothing. -/
def nsDetailBlock (d : ReasoningDetail) : Option ContentBlock :=
  match d with
  | ReasoningDetail.text t _ _ =>
    if jsTruthy t then some (ContentBlock.reasoning (t.getD "") (some [d]))
    else none
  | ReasoningDetail.summary s =>
    if jsTruthy s then some (ContentBlock.reasoning (s.getD "") (some [d]))
    else none
  | ReasoningDetail.encrypted dat =>
    if jsTruthy dat then some (ContentBlock.reasoning "[REDACTED]" (some [d]))
    else none

/-- The `reasoning` content array of `doGenerate`: mapped from
`reasoning_details` when non-empty, else from the legacy `reasoning` string
field. -/
def nsReasoningContent (msg : NSMessage) : List ContentBlock :=
  let reasoningDetails := msg.reasoning_details.getD []
  if reasoningDetails.length > 0 then
    reasoningDetails.filterMap nsDetailBlock
  else
    match msg.reasoning with
    | some r => if r = "" then [] else [ContentBlock.reasoning r none]
    | none => []

/-- The tool-call loop of `doGenerate`: each tool call becomes a block;
only the first gets the full `reasoning_details` array as provider
metadata (`reasoningDetailsAttachedToToolCall` flag). -/
def nsToolCallBlocks (details : List ReasoningDetail) (attached : Bool) :
    List NSToolCall → List ContentBlock
  | [] => []
  | tc :: rest =>
    ContentBlock.toolCall (tc.id.getD generateId) tc.function.name
        (tc.function.arguments.getD "\x7b\x7d")
        (if attached then none else some details) ::
      nsToolCallBlocks details true rest

/-- The full ordered content array built by `doGenerate`: reasoning blocks,
then the text block, then tool calls, then images, then URL-citation
sources. -/
def nsContent (msg : NSMessage) : List ContentBlock :=
  let reasoningDetails := msg.reasoning_details.getD []
  nsReasoningContent msg ++
    (match msg.content with
      | some c => if c = "" then [] else [ContentBlock.text c]
      | none => []) ++
    (match msg.tool_calls with
      | some tcs => nsToolCallBlocks reasoningDetails false tcs
      | none => []) ++
    (match msg.images with
      | some imgs => imgs.map (fun url => ContentBlock.file url)
      | none => []) ++
    (match msg.annotations with
      | some anns =>
        anns.filterMap (fun a =>
          match a with
          | NSAnnot.urlCitation url title =>
            some (ContentBlock.source url (title.getD ""))
          | NSAnnot.fileAnn => none)
      | none => [])

/-- `hasToolCalls` in `doGenerate`:
`choice.message.tool_calls && choice.message.tool_calls.length > 0`. -/
def nsHasToolCalls (msg : NSMessage) : Bool :=
  match msg.tool_calls with
  | some tcs => tcs.length > 0
  | none => false

/-- The effective finish reason of `doGenerate`: the Gemini-3
`thoughtSignature` override (tool calls present, an `Encrypted` detail with
truthy data, raw finish reason `stop`) maps to `tool-calls` preserving the
raw value; otherwise `mapOsmFinishReason` is applied unchanged. -/
def nsEffectiveFinishReason (msg : NSMessage)
    (finish_reason : Option String) : FinishReason :=
  let reasoningDetails := msg.reasoning_details.getD []
  let hasEncryptedReasoning := reasoningDetails.any isEncryptedWithData
  let shouldOverride :=
    nsHasToolCalls msg && hasEncryptedReasoning &&
      (finish_reason = some "stop")
  if shouldOverride then
    createFinishReason UnifiedFinishReason.toolCalls finish_reason
  else
    mapOsmFinishReason finish_reason

/-! ## Streaming transformer (`OsmChatLanguageModel.doStream`)

The `TransformStream` body is embedded as `processChunk` (per-chunk) and
`flushStep` (finalization), over an explicit `StreamState` mirroring the
closure-captured variables of `doStream`.  The provider-accounting record
`osmUsage` (a pure pass-through into the final provider metadata, with
float cost fields) is not carried in the state; no claim concerns it. -/

/-- `delta.tool_calls[i].function` in a stream chunk. -/
structure ToolCallFunctionDelta where
  name : Option String
  arguments : Option String
  deriving Repr, DecidableEq

/-- One element of `delta.tool_calls`.  The wire schema supplies `index`;
the JS fallback `?? toolCalls.length - 1` for a missing index is not
modelled. -/
structure ToolCallDelta where
  index : Nat
  type : Option String
  id : Option String
  function : Option ToolCallFunctionDelta
  deriving Repr, DecidableEq

/-- One element of `delta.annotations`: a URL citation (emitted as a source
event) or a file annotation (accumulated when it carries `hash` and
`name`). -/
inductive StreamAnnot
  | urlCitation (url : String) (title : Option String)
  | fileAnn (wellFormed : Bool)
  deriving Repr, DecidableEq

/-- `choice.delta` of a stream chunk. -/
structure Delta where
  reasoning_details : Option (List ReasoningDetail)
  reasoning : Option String
  content : Option String
  annotations : Option (List StreamAnnot)
  tool_calls : Option (List ToolCallDelta)
  images : Option (List String)
  deriving Repr, DecidableEq

/-- One element of `chunk.choices`. -/
structure StreamChoice where
  finish_reason : Option String
  delta : Option Delta
  deriving Repr, DecidableEq

/-- A successfully validated stream chunk body. -/
structure ChunkData where
  id : Option String
  model : Option String
  provider : Option String
  usage : Option UsageData
  choices : List StreamChoice
  deriving Repr, DecidableEq

/-- A validated chunk value: either a vendor error payload (an `error`
field in a success envelope) or chunk data. -/
inductive ChunkValue
  | errorPayload
  | data (c : ChunkData)
  deriving Repr, DecidableEq

/-- The schema-validation outcome fed to `transform`
(`ParseResult` from the provider-utils library). -/
inductive ParsedChunk
  | failure
  | success (v : ChunkValue)
  deriving Repr, DecidableEq

/-- The normalized stream event vocabulary (`LanguageModelV3StreamPart`),
restricted to the payload fields the claims inspect.  `md` fields carry the
`osm.reasoning_details` provider metadata. -/
inductive StreamEvent
  | raw
  | errorEv
  | metaId (id : String)
  | metaModel (modelId : String)
  | reasoningStart (id : String) (md : Option (List ReasoningDetail))
  | reasoningDelta (id : String) (delta : String)
      (md : Option (List ReasoningDetail))
  | reasoningEnd (id : String) (md : Option (List ReasoningDetail))
  | textStart (id : String)
  | textDelta (id : String) (delta : String)
  | textEnd (id : String)
  | sourceEv (url : String) (title : String)
  | toolInputStart (id : String) (toolName : String)
  | toolInputDelta (id : String) (delta : String)
  | toolInputEnd (id : String)
  | toolCallEv (toolCallId : String) (toolName : String) (input : String)
      (md : Option (List ReasoningDetail))
  | fileEv (url : String)
  | finishEv (reason : FinishReason) (usage : Usage)
  deriving Repr, DecidableEq

/-- A tool-call accumulator (one per observed index). -/
structure ToolCallAcc where
  id : String
  name : String
  arguments : String
  inputStarted : Bool
  sent : Bool
  deriving Repr, DecidableEq

/-- Exceptions the transformer can raise: protocol violations surface as
`InvalidResponseDataError`; reading `.arguments` off a missing `function`
object in the merge branch raises a JS `TypeError`. -/
inductive StreamError
  | invalidResponseData (msg : String)
  | typeError
  deriving Repr, DecidableEq

/-- The closure-captured mutable state of one `doStream` invocation. -/
structure StreamState where
  toolCalls : List (Option ToolCallAcc)
  finishReason : FinishReason
  usage : Usage
  rawUsage : Option UsageData
  accumulatedReasoningDetails : List ReasoningDetail
  reasoningDetailsAttachedToToolCall : Bool
  accumulatedFileAnnotCount : Nat
  textStarted : Bool
  reasoningStarted : Bool
  textId : Option String
  reasoningId : Option String
  osmResponseId : Option String
  provider : Option String
  deriving Repr, DecidableEq

/-- Initial stream state (the variable initializers in `doStream`). -/
def initState : StreamState :=
  { toolCalls := []
    finishReason := createFinishReason UnifiedFinishReason.other none
    usage :=
      { inputTokens :=
          { total := none, noCache := none, cacheRead := none,
            cacheWrite := none }
        outputTokens := { total := none, text := none, reasoning := none }
        raw := none }
    rawUsage := none
    accumulatedReasoningDetails := []
    reasoningDetailsAttachedToToolCall := false
    accumulatedFileAnnotCount := 0
    textStarted := false
    reasoningStarted := false
    textId := none
    reasoningId := none
    osmResponseId := none
    provider := none }

/-- Model parameters: the caller's `includeRawChunks` option and the
external `isParsableJson` JSON-validity predicate. -/
structure ModelCtx where
  includeRawChunks : Bool
  jsonOk : String → Bool

/-- JS array read `toolCalls[index]` (out-of-range and holes read as
absent). -/
def arrGet (l : List (Option ToolCallAcc)) (i : Nat) : Option ToolCallAcc :=
  (l.get? i).join

/-- JS array write `toolCalls[index] = v`: writing past the end extends the
array with holes. -/
def arrSet (l : List (Option ToolCallAcc)) (i : Nat) (v : ToolCallAcc) :
    List (Option ToolCallAcc) :=
  if i < l.length then l.set i (some v)
  else l ++ List.replicate (i - l.length) none ++ [some v]

/-- The `emitReasoningChunk` helper of `doStream.transform`: opens the
reasoning block on first use (id `osmResponseId || generateId()`), then
emits a reasoning-delta. -/
def emitReasoningChunk (s : StreamState) (chunkText : String)
    (md : Option (List ReasoningDetail)) : StreamState × List StreamEvent :=
  if s.reasoningStarted then
    (s, [StreamEvent.reasoningDelta (jsOrStr s.reasoningId generateId)
      chunkText md])
  else
    let rid := jsOrStr s.osmResponseId generateId
    ({ s with reasoningStarted := true, reasoningId := some rid },
      [StreamEvent.reasoningStart rid md,
        StreamEvent.reasoningDelta (jsOrStr (some rid) generateId)
          chunkText md])

/-- The per-detail emission switch of the reasoning-details loop: `Text`
emits its text, `Encrypted` emits the literal `[REDACTED]` placeholder,
`Summary` emits its summary — each only when the payload is truthy. -/
def emitForDetail (s : StreamState) (md : Option (List ReasoningDetail))
    (d : ReasoningDetail) : StreamState × List StreamEvent :=
  match d with
  | ReasoningDetail.text t _ _ =>
    if jsTruthy t then emitReasoningChunk s (t.getD "") md else (s, [])
  | ReasoningDetail.encrypted dat =>
    if jsTruthy dat then emitReasoningChunk s "[REDACTED]" md else (s, [])
  | ReasoningDetail.summary sum =>
    if jsTruthy sum then emitReasoningChunk s (sum.getD "") md else (s, [])

/-- The emission loop over a delta's `reasoning_details`. -/
def emitDetailsLoop (s : StreamState) (md : Option (List ReasoningDetail)) :
    List ReasoningDetail → StreamState × List StreamEvent
  | [] => (s, [])
  | d :: rest =>
    let r1 := emitForDetail s md d
    let r2 := emitDetailsLoop r1.1 md rest
    (r2.1, r1.2 ++ r2.2)

/-- The reasoning stage of `transform`: when `delta.reasoning_details` is
non-empty, first accumulate-merge every detail, then run the emission loop
(with the delta's own detail list as per-event metadata); otherwise fall
back to the legacy `delta.reasoning` string. -/
def handleReasoning (s : StreamState) (d : Delta) :
    StreamState × List StreamEvent :=
  match d.reasoning_details with
  | some ds =>
    if ds.length > 0 then
      let s1 := { s with
        accumulatedReasoningDetails :=
          accumulateDetails s.accumulatedReasoningDetails ds }
      emitDetailsLoop s1 (some ds) ds
    else if jsTruthy d.reasoning then
      emitReasoningChunk s (d.reasoning.getD "") none
    else (s, [])
  | none =>
    if jsTruthy d.reasoning then
      emitReasoningChunk s (d.reasoning.getD "") none
    else (s, [])

/-- The content stage of `transform`: on a truthy `delta.content`, first
close a still-open reasoning block (attaching the accumulated
reasoning-detail metadata), then open the text block if needed, then emit
the text delta. -/
def handleContent (s : StreamState) (content : Option String) :
    StreamState × List StreamEvent :=
  if jsTruthy content then
    let r1 :=
      if s.reasoningStarted && !s.textStarted then
        (({ s with reasoningStarted := false } : StreamState),
          [StreamEvent.reasoningEnd (jsOrStr s.reasoningId generateId)
            (if s.accumulatedReasoningDetails.length > 0 then
              some s.accumulatedReasoningDetails
            else none)])
      else (s, ([] : List StreamEvent))
    let r2 :=
      if !r1.1.textStarted then
        let tid := jsOrStr r1.1.osmResponseId generateId
        (({ r1.1 with textStarted := true, textId := some tid } :
            StreamState),
          [StreamEvent.textStart tid])
      else (r1.1, ([] : List StreamEvent))
    (r2.1, r1.2 ++ r2.2 ++
      [StreamEvent.textDelta (jsOrStr r2.1.textId generateId)
        (content.getD "")])
  else (s, [])

/-- The annotations stage of `transform`: URL citations are emitted as
source events; well-formed file annotations are accumulated. -/
def handleAnnots (s : StreamState) :
    List StreamAnnot → StreamState × List StreamEvent
  | [] => (s, [])
  | StreamAnnot.urlCitation url title :: rest =>
    let r := handleAnnots s rest
    (r.1, StreamEvent.sourceEv url (title.getD "") :: r.2)
  | StreamAnnot.fileAnn wf :: rest =>
    let s1 :=
      if wf then
        { s with accumulatedFileAnnotCount := s.accumulatedFileAnnotCount + 1 }
      else s
    handleAnnots s1 rest

/-- Output of an error-capable processing step: the updated state, the
events enqueued so far, and an exception if one was raised (a raised
exception aborts the rest of the chunk and the stream, but events already
enqueued stand). -/
structure StepOut where
  state : StreamState
  events : List StreamEvent
  err : Option StreamError
  deriving Repr, DecidableEq

/-- Processing of one element of `delta.tool_calls`.

First chunk for an index: validate `type` / `id` / `function.name`
(raising `InvalidResponseDataError` when absent), create the accumulator,
and — when the very first arguments string is already parsable JSON — emit
the synthetic tool-input start/delta/end sequence followed by the tool-call
event (reasoning metadata attached only if no tool call carried it yet).

Later chunks (merge): open the input block if needed, append the argument
fragment, emit a tool-input-delta, and emit the tool-call event whenever
the accumulated buffer is parsable JSON. -/
def processOneToolCallDelta (ctx : ModelCtx) (s : StreamState)
    (tcd : ToolCallDelta) : StepOut :=
  let index := tcd.index
  match arrGet s.toolCalls index with
  | none =>
    if tcd.type ≠ some "function" then
      { state := s, events := [],
        err := some (StreamError.invalidResponseData
          "Expected function type") }
    else
      match tcd.id with
      | none =>
        { state := s, events := [],
          err := some (StreamError.invalidResponseData
            "Expected id to be a string") }
      | some tid =>
        match tcd.function.bind (fun f => f.name) with
        | none =>
          { state := s, events := [],
            err := some (StreamError.invalidResponseData
              "Expected function.name to be a string") }
        | some fname =>
          let created : ToolCallAcc :=
            { id := tid, name := fname
              arguments := (tcd.function.bind (fun f => f.arguments)).getD ""
              inputStarted := false, sent := false }
          let s1 := { s with toolCalls := arrSet s.toolCalls index created }
          match arrGet s1.toolCalls index with
          | none =>
            -- defensive recheck in the source (`missing after creation`);
            -- unreachable after `arrSet`
            { state := s1, events := [],
              err := some (StreamError.invalidResponseData
                "Tool call at index is missing after creation") }
          | some toolCall =>
            -- the source guards on `name != null && arguments != null`
            -- too; both are non-null strings on the accumulator
            if ctx.jsonOk toolCall.arguments then
              let md :=
                if s1.reasoningDetailsAttachedToToolCall then none
                else some s1.accumulatedReasoningDetails
              { state :=
                  { s1 with
                    toolCalls := arrSet s1.toolCalls index
                      { toolCall with inputStarted := true, sent := true }
                    reasoningDetailsAttachedToToolCall := true }
                events :=
                  [StreamEvent.toolInputStart toolCall.id toolCall.name,
                    StreamEvent.toolInputDelta toolCall.id toolCall.arguments,
                    StreamEvent.toolInputEnd toolCall.id,
                    StreamEvent.toolCallEv toolCall.id toolCall.name
                      toolCall.arguments md]
                err := none }
            else { state := s1, events := [], err := none }
  | some toolCall =>
    -- the `missing during merge` recheck of the source is unreachable in
    -- this branch (the accumulator was just read)
    let r1 :=
      if toolCall.inputStarted then (s, ([] : List StreamEvent), toolCall)
      else
        let tc := { toolCall with inputStarted := true }
        ({ s with toolCalls := arrSet s.toolCalls tcd.index tc },
          [StreamEvent.toolInputStart toolCall.id toolCall.name], tc)
    match tcd.function with
    | none =>
      -- `toolCallDelta.function.arguments` with a missing `function`
      -- raises a TypeError before the tool-input-delta is enqueued
      { state := r1.1, events := r1.2.1, err := some StreamError.typeError }
    | some f =>
      let tc1 := r1.2.2
      let tc2 :=
        if f.arguments.isSome then
          { tc1 with arguments := tc1.arguments ++ f.arguments.getD "" }
        else tc1
      let s2 :=
        if f.arguments.isSome then
          { r1.1 with toolCalls := arrSet r1.1.toolCalls tcd.index tc2 }
        else r1.1
      let evs2 :=
        r1.2.1 ++ [StreamEvent.toolInputDelta tc1.id (f.arguments.getD "")]
      if ctx.jsonOk tc2.arguments then
        -- NOTE: the source does not test `sent` here, so a fragment that
        -- leaves the buffer parsable re-emits the tool-call event
        let md :=
          if s2.reasoningDetailsAttachedToToolCall then none
          else some s2.accumulatedReasoningDetails
        { state :=
            { s2 with
              toolCalls := arrSet s2.toolCalls tcd.index
                { tc2 with sent := true }
              reasoningDetailsAttachedToToolCall := true }
          events := evs2 ++
            [StreamEvent.toolCallEv tc2.id tc2.name tc2.arguments md]
          err := none }
      else { state := s2, events := evs2, err := none }

/-- The `for (const toolCallDelta of delta.tool_calls)` loop; an exception
aborts the remainder of the loop. -/
def processToolCallDeltas (ctx : ModelCtx) (s : StreamState) :
    List ToolCallDelta → StepOut
  | [] => { state := s, events := [], err := none }
  | tcd :: rest =>
    let r := processOneToolCallDelta ctx s tcd
    match r.err with
    | some e => { state := r.state, events := r.events, err := some e }
    | none =>
      let r2 := processToolCallDeltas ctx r.state rest
      { state := r2.state, events := r.events ++ r2.events, err := r2.err }

/-- The annotations stage on the optional `delta.annotations` field. -/
def handleAnnotsOpt (s : StreamState) (o : Option (List StreamAnnot)) :
    StreamState × List StreamEvent :=
  match o with
  | some anns => handleAnnots s anns
  | none => (s, [])

/-- The tool-call stage on the optional `delta.tool_calls` field. -/
def processToolCallDeltasOpt (ctx : ModelCtx) (s : StreamState)
    (o : Option (List ToolCallDelta)) : StepOut :=
  match o with
  | some tcs => processToolCallDeltas ctx s tcs
  | none => { state := s, events := [], err := none }

/-- The image stage on the optional `delta.images` field (each inline image
is emitted immediately as a file event). -/
def imagesEvents (o : Option (List String)) : List StreamEvent :=
  match o with
  | some imgs => imgs.map (fun url => StreamEvent.fileEv url)
  | none => []

/-- The delta-processing tail of `transform`, in source order: reasoning,
content, annotations, tool calls, images (the image stage is skipped when
the tool-call stage raised). -/
def processDelta (ctx : ModelCtx) (s : StreamState) (d : Delta) : StepOut :=
  let r1 := handleReasoning s d
  let r2 := handleContent r1.1 d.content
  let r3 := handleAnnotsOpt r2.1 d.annotations
  let r4 := processToolCallDeltasOpt ctx r3.1 d.tool_calls
  let evs5 :=
    match r4.err with
    | none => imagesEvents d.images
    | some _ => []
  { state := r4.state
    events := r1.2 ++ r2.2 ++ r3.2 ++ r4.events ++ evs5
    err := r4.err }

/-- The state updates of `transform` that precede delta processing:
provider and response-id recording, usage accumulation (the `Object.assign`
on `usage.inputTokens` / `usage.outputTokens` replaces both records
wholesale and retains the raw vendor usage), and the per-choice finish
reason. -/
def chunkPreState (s : StreamState) (c : ChunkData) : StreamState :=
  let s := if jsTruthy c.provider then { s with provider := c.provider }
    else s
  let s := if jsTruthy c.id then { s with osmResponseId := c.id } else s
  let s :=
    match c.usage with
    | some u =>
      let computed := computeTokenUsage u
      { s with
        usage :=
          { inputTokens := computed.inputTokens
            outputTokens := computed.outputTokens
            raw := s.usage.raw }
        rawUsage := some u }
    | none => s
  match (c.choices.head?).bind (fun ch => ch.finish_reason) with
  | some fr => { s with finishReason := mapOsmFinishReason (some fr) }
  | none => s

/-- The events `transform` enqueues before delta processing: the optional
raw passthrough and the response-metadata events for a truthy chunk id and
model. -/
def chunkPreEvents (ctx : ModelCtx) (c : ChunkData) : List StreamEvent :=
  (if ctx.includeRawChunks then [StreamEvent.raw] else []) ++
    (if jsTruthy c.id then [StreamEvent.metaId (c.id.getD "")] else []) ++
    (if jsTruthy c.model then [StreamEvent.metaModel (c.model.getD "")]
      else [])

/-- One invocation of `transform` on a parsed chunk: raw passthrough,
failed-validation and vendor-error chunks (error event, reason forced to
`error`, chunk abandoned), response metadata, usage accumulation, finish
reason, then delta processing. -/
def processChunk (ctx : ModelCtx) (s : StreamState) (pr : ParsedChunk) :
    StepOut :=
  let rawEvs : List StreamEvent :=
    if ctx.includeRawChunks then [StreamEvent.raw] else []
  match pr with
  | ParsedChunk.failure =>
    { state :=
        { s with
          finishReason :=
            (createFinishReason UnifiedFinishReason.error none) }
      events := rawEvs ++ [StreamEvent.errorEv], err := none }
  | ParsedChunk.success ChunkValue.errorPayload =>
    { state :=
        { s with
          finishReason :=
            (createFinishReason UnifiedFinishReason.error none) }
      events := rawEvs ++ [StreamEvent.errorEv], err := none }
  | ParsedChunk.success (ChunkValue.data c) =>
    match (c.choices.head?).bind (fun ch => ch.delta) with
    | none =>
      { state := chunkPreState s c
        events := chunkPreEvents ctx c
        err := none }
    | some d =>
      let r := processDelta ctx (chunkPreState s c) d
      { state := r.state
        events := chunkPreEvents ctx c ++ r.events
        err := r.err }

/-- The finish-reason override at flush (`hasToolCalls`,
`hasEncryptedReasoning`, unified reason `stop` → `tool-calls` preserving
the raw value). -/
def applyFinishOverride (s : StreamState) : StreamState :=
  let hasToolCalls := s.toolCalls.length > 0
  let hasEncryptedReasoning :=
    s.accumulatedReasoningDetails.any isEncryptedWithData
  if hasToolCalls && hasEncryptedReasoning &&
      s.finishReason.unified = UnifiedFinishReason.stop then
    { s with
      finishReason := createFinishReason UnifiedFinishReason.toolCalls
        s.finishReason.raw }
  else s

/-- The forced-emission loop of `flush`: every accumulator not yet sent is
emitted as a tool-call event, its input coerced to the empty-object literal
when the buffer is not parsable JSON; the reasoning-metadata attach flag
keeps ruling that only the first tool call carries the accumulated
details.  Returns the updated accumulator array, the final attach flag and
the events. -/
def forceEmitLoop (ctx : ModelCtx) (details : List ReasoningDetail) :
    Bool → List (Option ToolCallAcc) →
      List (Option ToolCallAcc) × Bool × List StreamEvent
  | attached, [] => ([], attached, [])
  | attached, none :: rest =>
    let r := forceEmitLoop ctx details attached rest
    (none :: r.1, r.2.1, r.2.2)
  | attached, some acc :: rest =>
    if acc.sent then
      let r := forceEmitLoop ctx details attached rest
      (some acc :: r.1, r.2.1, r.2.2)
    else
      let ev := StreamEvent.toolCallEv acc.id acc.name
        (if ctx.jsonOk acc.arguments then acc.arguments else "\x7b\x7d")
        (if attached then none else some details)
      let r := forceEmitLoop ctx details true rest
      (some { acc with sent := true } :: r.1, r.2.1, ev :: r.2.2)

/-- The `flush` step of the transformer, in source order: finish-reason
override, forced tool-call emission when the resolved reason is
`tool-calls`, closing a still-open reasoning block (with accumulated
metadata) and text block, then the terminal finish event. -/
def flushStep (ctx : ModelCtx) (s : StreamState) : List StreamEvent :=
  let s1 := applyFinishOverride s
  let p :=
    if s1.finishReason.unified = UnifiedFinishReason.toolCalls then
      let r := forceEmitLoop ctx s1.accumulatedReasoningDetails
        s1.reasoningDetailsAttachedToToolCall s1.toolCalls
      (({ s1 with
          toolCalls := r.1
          reasoningDetailsAttachedToToolCall := r.2.1 } : StreamState),
        r.2.2)
    else (s1, ([] : List StreamEvent))
  let s2 := p.1
  let evs2 :=
    if s2.reasoningStarted then
      [StreamEvent.reasoningEnd (jsOrStr s2.reasoningId generateId)
        (if s2.accumulatedReasoningDetails.length > 0 then
          some s2.accumulatedReasoningDetails
        else none)]
    else []
  let evs3 :=
    if s2.textStarted then
      [StreamEvent.textEnd (jsOrStr s2.textId generateId)]
    else []
  p.2 ++ evs2 ++ evs3 ++
    [StreamEvent.finishEv s2.finishReason
      { s2.usage with raw := s2.rawUsage }]

/-- The post-force state of `flush` (used to state that no accumulator is
left unemitted). -/
def flushForcedState (ctx : ModelCtx) (s : StreamState) : StreamState :=
  let s1 := applyFinishOverride s
  if s1.finishReason.unified = UnifiedFinishReason.toolCalls then
    let r := forceEmitLoop ctx s1.accumulatedReasoningDetails
      s1.reasoningDetailsAttachedToToolCall s1.toolCalls
    { s1 with toolCalls := r.1, reasoningDetailsAttachedToToolCall := r.2.1 }
  else s1

/-- Sequential chunk processing; an exception stops the stream (later
chunks are not processed). -/
def runChunksFrom (ctx : ModelCtx) (s : StreamState) :
    List ParsedChunk → StepOut
  | [] => { state := s, events := [], err := none }
  | c :: rest =>
    let r := processChunk ctx s c
    match r.err with
    | some e => { state := r.state, events := r.events, err := some e }
    | none =>
      let r2 := runChunksFrom ctx r.state rest
      { state := r2.state, events := r.events ++ r2.events, err := r2.err }

/-- A whole stream: all chunks from the initial state, then — unless an
exception aborted the pipeline — the flush step. -/
def runStream (ctx : ModelCtx) (chunks : List ParsedChunk) :
    List StreamEvent :=
  let r := runChunksFrom ctx initState chunks
  match r.err with
  | some _ => r.events
  | none => r.events ++ flushStep ctx r.state

/-! ## Analysis vocabulary

Classifiers and counters over the event vocabulary, used to state the
claims. -/

/-- Is this event a text-start? -/
def isTextStart : StreamEvent → Bool
  | StreamEvent.textStart _ => true
  | _ => false

/-- Is this event a reasoning-start or reasoning-delta? -/
def isReasoningStartOrDelta : StreamEvent → Bool
  | StreamEvent.reasoningStart _ _ => true
  | StreamEvent.reasoningDelta _ _ _ => true
  | _ => false

/-- Is this event a reasoning-end? -/
def isReasoningEnd : StreamEvent → Bool
  | StreamEvent.reasoningEnd _ _ => true
  | _ => false

/-- Number of reasoning-end events in a list. -/
def countReasoningEnd (evs : List StreamEvent) : Nat :=
  evs.countP (fun e => isReasoningEnd e)

/-- The events strictly after the first text-start. -/
def dropThroughFirstTextStart : List StreamEvent → List StreamEvent
  | [] => []
  | e :: rest =>
    if isTextStart e then rest else dropThroughFirstTextStart rest

/-- The provider metadata of a tool-call event (and `none` for any other
event). -/
def toolCallMd : StreamEvent → Option (Option (List ReasoningDetail))
  | StreamEvent.toolCallEv _ _ _ md => some md
  | _ => none

/-- The metadata fields of the tool-call events of a list, in order. -/
def toolCallMds (evs : List StreamEvent) :
    List (Option (List ReasoningDetail)) :=
  evs.filterMap toolCallMd

/-- Number of tool-call events carrying a given tool-call id. -/
def countToolCallId (evs : List StreamEvent) (i : String) : Nat :=
  evs.countP (fun e =>
    match e with
    | StreamEvent.toolCallEv tid _ _ _ => tid = i
    | _ => false)

/-- The metadata fields of the tool-call blocks of a non-streaming content
list, in order. -/
def nsToolCallMds (blocks : List ContentBlock) :
    List (Option (List ReasoningDetail)) :=
  blocks.filterMap (fun b =>
    match b with
    | ContentBlock.toolCall _ _ _ md => some md
    | _ => none)

/-- A delta carrying no reasoning content (empty or absent
`reasoning_details`, falsy legacy `reasoning`). -/
def deltaNoReasoning (d : Delta) : Bool :=
  (match d.reasoning_details with
    | some ds => ds.isEmpty
    | none => true) &&
  !(jsTruthy d.reasoning)

/-- A parsed chunk carrying no reasoning content. -/
def chunkNoReasoning : ParsedChunk → Bool
  | ParsedChunk.failure => true
  | ParsedChunk.success ChunkValue.errorPayload => true
  | ParsedChunk.success (ChunkValue.data c) =>
    match c.choices.head? with
    | some ch =>
      match ch.delta with
      | some d => deltaNoReasoning d
      | none => true
    | none => true

/-- A parsed chunk whose first choice carries a truthy text content
delta. -/
def chunkHasContent : ParsedChunk → Bool
  | ParsedChunk.success (ChunkValue.data c) =>
    match c.choices.head? with
    | some ch =>
      match ch.delta with
      | some d => jsTruthy d.content
      | none => false
    | none => false
  | _ => false

/-- Is a reasoning detail of the `Text` variant? -/
def isTextDetail : ReasoningDetail → Bool
  | ReasoningDetail.text _ _ _ => true
  | _ => false

/-- The `text` field of a `Text` detail (`none` otherwise). -/
def textOf : ReasoningDetail → Option String
  | ReasoningDetail.text t _ _ => t
  | _ => none

/-- The `signature` field of a `Text` detail (`none` otherwise). -/
def sigOf : ReasoningDetail → Option String
  | ReasoningDetail.text _ s _ => s
  | _ => none

/-- The `format` field of a `Text` detail (`none` otherwise). -/
def fmtOf : ReasoningDetail → Option String
  | ReasoningDetail.text _ _ f => f
  | _ => none

/-- Invariant tying the reasoning-metadata attach flag to the tool-call
events emitted so far: with the flag already set only metadata-free
tool-call events are emitted; with the flag clear, either no tool-call
event was emitted (flag stays clear) or the first one carries metadata,
all later ones carry none, and the flag is set. -/
def attachInv (b : Bool) (mds : List (Option (List ReasoningDetail)))
    (a : Bool) : Prop :=
  match b with
  | true => a = true ∧ ∀ m ∈ mds, m = none
  | false =>
    match mds with
    | [] => a = false
    | m :: rest => a = true ∧ m.isSome = true ∧ ∀ x ∈ rest, x = none

/-- Is this event one of the four tool-call stream events
(input-start, input-delta, input-end, tool-call)? -/
def isToolish : StreamEvent → Bool
  | StreamEvent.toolInputStart _ _ => true
  | StreamEvent.toolInputDelta _ _ => true
  | StreamEvent.toolInputEnd _ => true
  | StreamEvent.toolCallEv _ _ _ _ => true
  | _ => false

/-- A concrete model context (raw passthrough off, nothing parses as
JSON). -/
def c2ctx : ModelCtx :=
  { includeRawChunks := false, jsonOk := fun _ => false }

/-- A concrete chunk carrying one `Text` reasoning detail and nothing
else. -/
def c2reasoningChunk : ParsedChunk :=
  ParsedChunk.success (ChunkValue.data
    { id := none, model := none, provider := none, usage := none
      choices :=
        [{ finish_reason := none
           delta := (some
             { reasoning_details :=
                 (some [ReasoningDetail.text (some "deep") none none])
               reasoning := none
               content := none, annotations := none
               tool_calls := none, images := none }) }] })

/-- A concrete chunk carrying a text content delta and no reasoning. -/
def c2contentChunk : ParsedChunk :=
  ParsedChunk.success (ChunkValue.data
    { id := none, model := none, provider := none, usage := none
      choices :=
        [{ finish_reason := none
           delta := (some
             { reasoning_details := none, reasoning := none
               content := some "hello", annotations := none
               tool_calls := none, images := none }) }] })

/-! ## Basic lemmas -/

theorem jsOrStr_generateId_ne (a : Option String) :
    jsOrStr a generateId ≠ "" := by
  cases a with
  | none => simp [jsOrStr, generateId]
  | some s =>
    by_cases h : s = "" <;> simp [jsOrStr, generateId, h]

theorem jsOrStr_some_of_ne (s : String) (h : s ≠ "") (b : String) :
    jsOrStr (some s) b = s := by
  simp [jsOrStr, h]

theorem arrGet_arrSet (l : List (Option ToolCallAcc)) (i : Nat)
    (v : ToolCallAcc) : arrGet (arrSet l i v) i = some v := by
  unfold arrGet arrSet
  by_cases h : i < l.length
  · simp [h, List.get?_eq_getElem?, List.getElem?_set_eq_of_lt _ h]
  · simp only [h, if_false]
    have hlen : l.length ≤ i := Nat.le_of_not_lt h
    rw [List.append_assoc, List.get?_eq_getElem?,
      List.getElem?_append_right hlen]
    rw [List.getElem?_append_right (by simp)]
    simp

/-! ## Claim C9: usage subtractions -/

/-- **C9.** For every vendor usage object with known `prompt_tokens` and
`cached_tokens`, the usage normalizer returns `inputTokens.noCache` equal
to total minus cacheRead — with no clamping, so the result may be negative
when cacheRead exceeds total — and for every usage object with known
`completion_tokens` and `reasoning_tokens` it returns `outputTokens.text`
equal to total minus reasoning. -/
theorem computeTokenUsage_subtraction_properties (u : UsageData) :
    (∀ p c, u.prompt_tokens = some p →
      u.prompt_tokens_details.bind (fun d => d.cached_tokens) = some c →
      (computeTokenUsage u).inputTokens.total = some p ∧
      (computeTokenUsage u).inputTokens.cacheRead = some c ∧
      (computeTokenUsage u).inputTokens.noCache = some (p - c)) ∧
    (∀ t r, u.completion_tokens = some t →
      u.completion_tokens_details.bind (fun d => d.reasoning_tokens) =
        some r →
      (computeTokenUsage u).outputTokens.total = some t ∧
      (computeTokenUsage u).outputTokens.reasoning = some r ∧
      (computeTokenUsage u).outputTokens.text = some (t - r)) := by
  constructor
  · intro p c hp hc
    simp [computeTokenUsage, hp, hc]
  · intro t r ht hr
    simp [computeTokenUsage, ht, hr]

/-- Witness for C9 at a usage object with `cacheRead > total`: the
derived `noCache` is the negative difference, passed through unclamped. -/
theorem computeTokenUsage_subtraction_properties_witness :
    (computeTokenUsage
        { prompt_tokens := some 5
          completion_tokens := some 20
          prompt_tokens_details :=
            some { cached_tokens := some 10, cache_write_tokens := none }
          completion_tokens_details := some { reasoning_tokens := some 8 }
          total_tokens := none }).inputTokens.total = some 5 ∧
    (computeTokenUsage
        { prompt_tokens := some 5
          completion_tokens := some 20
          prompt_tokens_details :=
            some { cached_tokens := some 10, cache_write_tokens := none }
          completion_tokens_details := some { reasoning_tokens := some 8 }
          total_tokens := none }).inputTokens.cacheRead = some 10 ∧
    (computeTokenUsage
        { prompt_tokens := some 5
          completion_tokens := some 20
          prompt_tokens_details :=
            some { cached_tokens := some 10, cache_write_tokens := none }
          completion_tokens_details := some { reasoning_tokens := some 8 }
          total_tokens := none }).inputTokens.noCache =
      some ((5 : Int) - 10) ∧
    (computeTokenUsage
        { prompt_tokens := some 5
          completion_tokens := some 20
          prompt_tokens_details :=
            some { cached_tokens := some 10, cache_write_tokens := none }
          completion_tokens_details := some { reasoning_tokens := some 8 }
          total_tokens := none }).outputTokens.text =
      some ((20 : Int) - 8) := by
  have h := computeTokenUsage_subtraction_properties
    { prompt_tokens := some 5
      completion_tokens := some 20
      prompt_tokens_details :=
        some { cached_tokens := some 10, cache_write_tokens := none }
      completion_tokens_details := some { reasoning_tokens := some 8 }
      total_tokens := none }
  have h1 := h.1 5 10 rfl rfl
  have h2 := h.2 20 8 rfl rfl
  exact ⟨h1.1, h1.2.1, h1.2.2, h2.2.2⟩

/-! ## Claim C7: reasoning-detail accumulation -/

theorem jsOrOpt_falsy (a x : Option String) (ha : jsTruthy a = false) :
    jsOrOpt a x = x := by
  cases a with
  | none => rfl
  | some s =>
    simp [jsTruthy] at ha
    simp [jsOrOpt, ha]

theorem jsOrOpt_truthy (a x : Option String) (ha : jsTruthy a = true) :
    jsOrOpt a x = a := by
  cases a with
  | none => simp [jsTruthy] at ha
  | some s =>
    simp [jsTruthy] at ha
    simp [jsOrOpt, ha]

theorem foldl_jsOrOpt_truthy (post : List (Option String))
    (s : Option String) (hs : jsTruthy s = true) :
    post.foldl jsOrOpt s = s := by
  induction post with
  | nil => rfl
  | cons x post ih => simp only [List.foldl_cons, jsOrOpt_truthy s x hs, ih]

theorem accumulateDetails_allText_aux (rest : List ReasoningDetail)
    (h : ∀ d ∈ rest, isTextDetail d = true) (X : List ReasoningDetail)
    (T S F : Option String) :
    accumulateDetails (X ++ [ReasoningDetail.text T S F]) rest =
      X ++ [ReasoningDetail.text
        (if rest.isEmpty then T
          else some (rest.foldl (fun a d => a ++ (textOf d).getD "")
            (T.getD "")))
        (rest.foldl (fun a d => jsOrOpt a (sigOf d)) S)
        (rest.foldl (fun a d => jsOrOpt a (fmtOf d)) F)] := by
  induction rest generalizing X T S F with
  | nil => simp [accumulateDetails]
  | cons d rest ih =>
    obtain ⟨t1, s1, f1, rfl⟩ : ∃ t s f, d = ReasoningDetail.text t s f := by
      have hd := h d (by simp)
      cases d with
      | text t s f => exact ⟨t, s, f, rfl⟩
      | summary s => simp [isTextDetail] at hd
      | encrypted dat => simp [isTextDetail] at hd
    have hstep :
        accumulateDetail (X ++ [ReasoningDetail.text T S F])
            (ReasoningDetail.text t1 s1 f1) =
          X ++ [ReasoningDetail.text (some (T.getD "" ++ t1.getD ""))
            (jsOrOpt S s1) (jsOrOpt F f1)] := by
      simp [accumulateDetail, List.getLast?_concat, List.dropLast_concat]
    have hrest : ∀ d ∈ rest, isTextDetail d = true := by
      intro x hx
      exact h x (by simp [hx])
    calc accumulateDetails (X ++ [ReasoningDetail.text T S F])
          (ReasoningDetail.text t1 s1 f1 :: rest)
        = accumulateDetails
            (X ++ [ReasoningDetail.text (some (T.getD "" ++ t1.getD ""))
              (jsOrOpt S s1) (jsOrOpt F f1)]) rest := by
          simp only [accumulateDetails, List.foldl_cons, hstep]
      _ = X ++ [ReasoningDetail.text
            (if rest.isEmpty then some (T.getD "" ++ t1.getD "")
              else some (rest.foldl (fun a d => a ++ (textOf d).getD "")
                ((some (T.getD "" ++ t1.getD "")).getD "")))
            (rest.foldl (fun a d => jsOrOpt a (sigOf d)) (jsOrOpt S s1))
            (rest.foldl (fun a d => jsOrOpt a (fmtOf d)) (jsOrOpt F f1))] :=
          ih hrest X _ _ _
      _ = _ := by
          cases rest with
          | nil => simp [textOf, sigOf, fmtOf]
          | cons r rest => simp [textOf, sigOf, fmtOf]

/-- **C7.** For every sequence of incoming reasoning-detail fragments,
consecutive `Text` fragments are merged into one accumulated entry whose
text is the concatenation of the fragment texts and whose signature and
format are the first non-empty signature and format seen, while
`Encrypted` and `Summary` fragments are appended as standalone entries and
never merged; in particular `{text: a}` then `{text: b, signature: s}`
accumulate to the single entry `{text: ab, signature: s}`. -/
theorem reasoning_detail_accumulation_rules :
    (∀ acc lt lsig lfmt t sig fmt,
      accumulateDetail (acc ++ [ReasoningDetail.text lt lsig lfmt])
          (ReasoningDetail.text t sig fmt) =
        acc ++ [ReasoningDetail.text (some (lt.getD "" ++ t.getD ""))
          (jsOrOpt lsig sig) (jsOrOpt lfmt fmt)]) ∧
    (∀ acc s, accumulateDetail acc (ReasoningDetail.summary s) =
      acc ++ [ReasoningDetail.summary s]) ∧
    (∀ acc dat, accumulateDetail acc (ReasoningDetail.encrypted dat) =
      acc ++ [ReasoningDetail.encrypted dat]) ∧
    (∀ t0 s0 f0 d rest, (∀ x ∈ d :: rest, isTextDetail x = true) →
      accumulateDetails [] (ReasoningDetail.text t0 s0 f0 :: d :: rest) =
        [ReasoningDetail.text
          (some ((d :: rest).foldl (fun a x => a ++ (textOf x).getD "")
            (t0.getD "")))
          ((d :: rest).foldl (fun a x => jsOrOpt a (sigOf x)) s0)
          ((d :: rest).foldl (fun a x => jsOrOpt a (fmtOf x)) f0)]) ∧
    (∀ (pre post : List (Option String)) (init s : Option String),
      jsTruthy init = false → (∀ x ∈ pre, jsTruthy x = false) →
      jsTruthy s = true →
      (pre ++ s :: post).foldl jsOrOpt init = s) ∧
    (accumulateDetails []
        [ReasoningDetail.text (some "a") none none,
          ReasoningDetail.text (some "b") (some "s") none] =
      [ReasoningDetail.text (some "ab") (some "s") none]) := by
  refine ⟨?_, ?_, ?_, ?_, ?_, by decide⟩
  · intro acc lt lsig lfmt t sig fmt
    simp [accumulateDetail, List.getLast?_concat, List.dropLast_concat]
  · intro acc s
    simp [accumulateDetail]
  · intro acc dat
    simp [accumulateDetail]
  · intro t0 s0 f0 d rest hall
    have := accumulateDetails_allText_aux (d :: rest) hall []
      t0 s0 f0
    simpa using this
  · intro pre post init s hinit hpre hs
    induction pre generalizing init with
    | nil =>
      simp only [List.nil_append, List.foldl_cons,
        jsOrOpt_falsy init s hinit]
      exact foldl_jsOrOpt_truthy post s hs
    | cons p pre ih =>
      simp only [List.cons_append, List.foldl_cons,
        jsOrOpt_falsy init p hinit]
      exact ih p (hpre p (by simp))
        (fun x hx => hpre x (List.mem_cons_of_mem _ hx))

/-- Witness for C7: three incremental `Text` fragments collapse to one
entry with concatenated text and the first non-empty signature. -/
theorem reasoning_detail_accumulation_rules_witness :
    accumulateDetails []
        [ReasoningDetail.text (some "a") none none,
          ReasoningDetail.text (some "b") (some "s") none,
          ReasoningDetail.text (some "c") (some "z") (some "f")] =
      [ReasoningDetail.text (some "abc") (some "s") (some "f")] := by
  have h := reasoning_detail_accumulation_rules.2.2.2.1 (some "a") none none
    (ReasoningDetail.text (some "b") (some "s") none)
    [ReasoningDetail.text (some "c") (some "z") (some "f")] (by decide)
  exact h.trans (by decide)

/-! ## Claim C10: encrypted reasoning is surfaced as a redacted
placeholder -/

/-- **C10.** For every `Encrypted` reasoning detail with non-empty data,
the text surfaced to the consumer is the literal placeholder `[REDACTED]`
— as the reasoning block text in the non-streaming mapper and as the
reasoning-delta text in the streaming transformer — independent of the
encrypted payload, which travels only inside the provider metadata; an
`Encrypted` detail with empty or absent data produces no reasoning
content or delta at all. -/
theorem encrypted_reasoning_redacted :
    (∀ s md dat, jsTruthy dat = true →
      (emitForDetail s md (ReasoningDetail.encrypted dat)).2 =
        (if s.reasoningStarted then
          [StreamEvent.reasoningDelta (jsOrStr s.reasoningId generateId)
            "[REDACTED]" md]
        else
          [StreamEvent.reasoningStart (jsOrStr s.osmResponseId generateId)
              md,
            StreamEvent.reasoningDelta (jsOrStr s.osmResponseId generateId)
              "[REDACTED]" md])) ∧
    (∀ s md dat, jsTruthy dat = false →
      emitForDetail s md (ReasoningDetail.encrypted dat) = (s, [])) ∧
    (∀ d, jsTruthy d = true →
      nsDetailBlock (ReasoningDetail.encrypted d) =
        some (ContentBlock.reasoning "[REDACTED]"
          (some [ReasoningDetail.encrypted d]))) ∧
    (∀ d, jsTruthy d = false →
      nsDetailBlock (ReasoningDetail.encrypted d) = none) := by
  refine ⟨?_, ?_, ?_, ?_⟩
  · intro s md dat hdat
    by_cases hR : s.reasoningStarted <;>
      simp [emitForDetail, hdat, emitReasoningChunk, hR,
        jsOrStr_some_of_ne _ (jsOrStr_generateId_ne _)]
  · intro s md dat hdat
    simp [emitForDetail, hdat]
  · intro d hd
    simp [nsDetailBlock, hd]
  · intro d hd
    simp [nsDetailBlock, hd]

/-- Witness for C10 at a fresh stream state and the payload `secret`: the
emitted delta text is `[REDACTED]`, and an empty payload emits nothing. -/
theorem encrypted_reasoning_redacted_witness :
    (emitForDetail initState none
        (ReasoningDetail.encrypted (some "secret"))).2 =
      [StreamEvent.reasoningStart "gen-id" none,
        StreamEvent.reasoningDelta "gen-id" "[REDACTED]" none] ∧
    emitForDetail initState none (ReasoningDetail.encrypted (some "")) =
      (initState, []) ∧
    nsDetailBlock (ReasoningDetail.encrypted (some "secret")) =
      some (ContentBlock.reasoning "[REDACTED]"
        (some [ReasoningDetail.encrypted (some "secret")])) := by
  refine ⟨?_, ?_, ?_⟩
  · have h := encrypted_reasoning_redacted.1 initState none (some "secret")
      (by decide)
    exact h.trans (by decide)
  · exact encrypted_reasoning_redacted.2.1 initState none (some "")
      (by decide)
  · exact encrypted_reasoning_redacted.2.2.1 (some "secret") (by decide)

/-! ## Claim C1: the encrypted-reasoning finish-reason override -/

/-- **C1.** For every non-streaming response and at every stream flush: if
the response contains at least one tool call and at least one `Encrypted`
reasoning detail with non-empty data and the mapped finish reason is
`stop`, the unified finish reason is overridden to `tool-calls` while the
original raw value is preserved; if any of the three conditions fails, the
mapped reason is returned unchanged.  (The first conjunct ties the mapped
reason to the raw value: the mapper sends exactly the raw string `stop` to
unified `stop`, and preserves the raw value.) -/
theorem finish_reason_encrypted_override :
    (∀ r, ((mapOsmFinishReason r).unified = UnifiedFinishReason.stop ↔
        r = some "stop") ∧ (mapOsmFinishReason r).raw = r) ∧
    (∀ msg fr, nsHasToolCalls msg = true →
      (msg.reasoning_details.getD []).any isEncryptedWithData = true →
      fr = some "stop" →
      nsEffectiveFinishReason msg fr =
        { unified := UnifiedFinishReason.toolCalls, raw := some "stop" }) ∧
    (∀ msg fr,
      ¬(nsHasToolCalls msg = true ∧
        (msg.reasoning_details.getD []).any isEncryptedWithData = true ∧
        fr = some "stop") →
      nsEffectiveFinishReason msg fr = mapOsmFinishReason fr) ∧
    (∀ s : StreamState, s.toolCalls.length > 0 →
      s.accumulatedReasoningDetails.any isEncryptedWithData = true →
      s.finishReason.unified = UnifiedFinishReason.stop →
      applyFinishOverride s =
        { s with finishReason :=
            { unified := UnifiedFinishReason.toolCalls
              raw := s.finishReason.raw } }) ∧
    (∀ s : StreamState,
      ¬(s.toolCalls.length > 0 ∧
        s.accumulatedReasoningDetails.any isEncryptedWithData = true ∧
        s.finishReason.unified = UnifiedFinishReason.stop) →
      applyFinishOverride s = s) := by
  refine ⟨?_, ?_, ?_, ?_, ?_⟩
  · intro r
    constructor
    · cases r with
      | none => simp [mapOsmFinishReason]
      | some s =>
        by_cases h1 : s = "stop"
        · simp [mapOsmFinishReason, h1]
        · by_cases h2 : s = "length"
          · simp [mapOsmFinishReason, h1, h2]
          · by_cases h3 : s = "tool_calls"
            · simp [mapOsmFinishReason, h1, h2, h3]
            · by_cases h4 : s = "content_filter"
              · simp [mapOsmFinishReason, h1, h2, h3, h4]
              · by_cases h5 : s = "error"
                · simp [mapOsmFinishReason, h1, h2, h3, h4, h5]
                · simp [mapOsmFinishReason, h1, h2, h3, h4, h5]
    · rfl
  · intro msg fr h1 h2 h3
    subst h3
    simp [nsEffectiveFinishReason, h1, h2, createFinishReason]
  · intro msg fr h
    simp only [nsEffectiveFinishReason]
    rw [if_neg]
    intro hc
    simp only [Bool.and_eq_true, decide_eq_true_eq] at hc
    exact h ⟨hc.1.1, hc.1.2, hc.2⟩
  · intro s h1 h2 h3
    simp [applyFinishOverride, h1, h2, h3, createFinishReason]
  · intro s h
    simp only [applyFinishOverride]
    rw [if_neg]
    intro hc
    simp only [Bool.and_eq_true, decide_eq_true_eq] at hc
    exact h ⟨hc.1.1, hc.1.2, hc.2⟩

/-- Witness for C1: a response with one tool call, one `Encrypted` detail
with non-empty data and raw finish reason `stop` maps to `tool-calls` with
raw `stop` preserved, both in the non-streaming mapper and at the stream
flush override; with an empty-data encrypted detail nothing changes. -/
theorem finish_reason_encrypted_override_witness :
    nsEffectiveFinishReason
        { content := none
          reasoning := none
          reasoning_details := some [ReasoningDetail.encrypted (some "sig")]
          tool_calls :=
            some [{ id := some "t1"
                    function := { name := "f", arguments := none } }]
          images := none
          annotations := none } (some "stop") =
      { unified := UnifiedFinishReason.toolCalls, raw := some "stop" } ∧
    applyFinishOverride
        { initState with
          toolCalls :=
            some { id := "t1", name := "f", arguments := ""
                   inputStarted := false, sent := false } :: []
          accumulatedReasoningDetails :=
            [ReasoningDetail.encrypted (some "sig")]
          finishReason :=
            { unified := UnifiedFinishReason.stop, raw := some "stop" } } =
      { initState with
        toolCalls :=
          some { id := "t1", name := "f", arguments := ""
                 inputStarted := false, sent := false } :: []
        accumulatedReasoningDetails :=
          [ReasoningDetail.encrypted (some "sig")]
        finishReason :=
          { unified := UnifiedFinishReason.toolCalls, raw := some "stop" } } ∧
    nsEffectiveFinishReason
        { content := none
          reasoning := none
          reasoning_details := some [ReasoningDetail.encrypted (some "")]
          tool_calls :=
            some [{ id := some "t1"
                    function := { name := "f", arguments := none } }]
          images := none
          annotations := none } (some "stop") =
      mapOsmFinishReason (some "stop") := by
  refine ⟨?_, ?_, ?_⟩
  · exact finish_reason_encrypted_override.2.1 _ _ (by decide) (by decide)
      rfl
  · exact (finish_reason_encrypted_override.2.2.2.1 _ (by decide) (by decide)
      rfl)
  · exact finish_reason_encrypted_override.2.2.1 _ _ (by decide)

/-! ## Claim C8: first-delta tool-call validation -/

/-- **C8.** For every stream state and every tool-call delta for an index
not seen before: a `type` other than `function`, a missing `id`, or a
missing `function.name` makes the transformer raise an
invalid-response-data exception (fatal: no events are enqueued and no
error event is surfaced); when all three fields are present no exception
is raised and an accumulator with that id and name is created at the
index. -/
theorem tool_call_first_delta_validation (ctx : ModelCtx) (s : StreamState)
    (tcd : ToolCallDelta) (h : arrGet s.toolCalls tcd.index = none) :
    (tcd.type ≠ some "function" →
      processOneToolCallDelta ctx s tcd =
        { state := s, events := []
          err := some (StreamError.invalidResponseData
            "Expected function type") }) ∧
    (tcd.type = some "function" → tcd.id = none →
      processOneToolCallDelta ctx s tcd =
        { state := s, events := []
          err := some (StreamError.invalidResponseData
            "Expected id to be a string") }) ∧
    (∀ tid, tcd.type = some "function" → tcd.id = some tid →
      tcd.function.bind (fun f => f.name) = none →
      processOneToolCallDelta ctx s tcd =
        { state := s, events := []
          err := some (StreamError.invalidResponseData
            "Expected function.name to be a string") }) ∧
    (∀ tid fname, tcd.type = some "function" → tcd.id = some tid →
      tcd.function.bind (fun f => f.name) = some fname →
      (processOneToolCallDelta ctx s tcd).err = none ∧
      ∃ acc, arrGet (processOneToolCallDelta ctx s tcd).state.toolCalls
          tcd.index = some acc ∧
        acc.id = tid ∧ acc.name = fname ∧
        acc.arguments = (tcd.function.bind (fun f => f.arguments)).getD "") :=
  by
  refine ⟨?_, ?_, ?_, ?_⟩
  · intro hty
    simp [processOneToolCallDelta, h, hty]
  · intro hty hid
    simp [processOneToolCallDelta, h, hty, hid]
  · intro tid hty hid hname
    simp [processOneToolCallDelta, h, hty, hid, hname]
  · intro tid fname hty hid hname
    simp only [processOneToolCallDelta, h, hty, hid, hname]
    rw [arrGet_arrSet]
    by_cases hj : ctx.jsonOk
        ((tcd.function.bind (fun f => f.arguments)).getD "")
    · simp only [hj, if_true]
      refine ⟨rfl, ?_⟩
      exact ⟨_, arrGet_arrSet _ _ _, rfl, rfl, rfl⟩
    · simp only [hj, if_false]
      refine ⟨rfl, ?_⟩
      exact ⟨_, arrGet_arrSet _ _ _, rfl, rfl, rfl⟩

/-- Witness for C8: on a fresh stream, a first delta missing its `type`
raises the protocol-violation exception with no events, and a fully-formed
first delta creates the accumulator without raising. -/
theorem tool_call_first_delta_validation_witness :
    processOneToolCallDelta
        { includeRawChunks := false, jsonOk := fun _ => false } initState
        { index := 0, type := none, id := some "call1"
          function := some { name := some "f", arguments := none } } =
      { state := initState, events := []
        err := some (StreamError.invalidResponseData
          "Expected function type") } ∧
    (processOneToolCallDelta
        { includeRawChunks := false, jsonOk := fun _ => false } initState
        { index := 0, type := some "function", id := some "call1"
          function := some { name := some "f", arguments := none } }).err =
      none := by
  constructor
  · exact (tool_call_first_delta_validation
      { includeRawChunks := false, jsonOk := fun _ => false } initState
      { index := 0, type := none, id := some "call1"
        function := some { name := some "f", arguments := none } }
      (by decide)).1 (by decide)
  · exact ((tool_call_first_delta_validation
      { includeRawChunks := false, jsonOk := fun _ => false } initState
      { index := 0, type := some "function", id := some "call1"
        function := some { name := some "f", arguments := none } }
      (by decide)).2.2.2 "call1" "f" rfl rfl rfl).1

/-! ## Claim C5: forced tool-call emission at flush -/

theorem applyFinishOverride_toolCalls (s : StreamState) :
    (applyFinishOverride s).toolCalls = s.toolCalls := by
  simp only [applyFinishOverride]
  split <;> rfl

theorem applyFinishOverride_accumulated (s : StreamState) :
    (applyFinishOverride s).accumulatedReasoningDetails =
      s.accumulatedReasoningDetails := by
  simp only [applyFinishOverride]
  split <;> rfl

theorem forceEmitLoop_mem (ctx : ModelCtx) (details : List ReasoningDetail)
    (l : List (Option ToolCallAcc)) :
    ∀ (attached : Bool) (a : ToolCallAcc), some a ∈ l → a.sent = false →
      ∃ md, StreamEvent.toolCallEv a.id a.name
          (if ctx.jsonOk a.arguments then a.arguments else "\x7b\x7d") md ∈
        (forceEmitLoop ctx details attached l).2.2 := by
  induction l with
  | nil => intro attached a ha; simp at ha
  | cons o rest ih =>
    intro attached a ha hsent
    rcases List.mem_cons.mp ha with heq | hmem
    · cases o with
      | none => exact absurd heq.symm (by simp)
      | some acc =>
        have hacc : acc = a := Option.some.inj heq.symm
        subst hacc
        rw [forceEmitLoop]
        rw [if_neg (by simp [hsent])]
        exact ⟨if attached then none else some details, by simp⟩
    · cases o with
      | none =>
        rw [forceEmitLoop]
        obtain ⟨md, hmd⟩ := ih attached a hmem hsent
        exact ⟨md, by simpa using hmd⟩
      | some acc =>
        rw [forceEmitLoop]
        by_cases hs : acc.sent
        · rw [if_pos hs]
          obtain ⟨md, hmd⟩ := ih attached a hmem hsent
          exact ⟨md, by simpa using hmd⟩
        · rw [if_neg hs]
          obtain ⟨md, hmd⟩ := ih true a hmem hsent
          exact ⟨md, by simp [hmd]⟩

theorem forceEmitLoop_allSent (ctx : ModelCtx)
    (details : List ReasoningDetail) (l : List (Option ToolCallAcc)) :
    ∀ (attached : Bool) (a : ToolCallAcc),
      some a ∈ (forceEmitLoop ctx details attached l).1 → a.sent = true := by
  induction l with
  | nil => intro attached a ha; simp [forceEmitLoop] at ha
  | cons o rest ih =>
    intro attached a ha
    cases o with
    | none =>
      rw [forceEmitLoop] at ha
      rcases List.mem_cons.mp ha with heq | hmem
      · exact absurd heq.symm (by simp)
      · exact ih attached a hmem
    | some acc =>
      rw [forceEmitLoop] at ha
      by_cases hs : acc.sent
      · rw [if_pos hs] at ha
        rcases List.mem_cons.mp ha with heq | hmem
        · have : acc = a := Option.some.inj heq.symm
          subst this
          exact hs
        · exact ih attached a hmem
      · rw [if_neg hs] at ha
        rcases List.mem_cons.mp ha with heq | hmem
        · have : { acc with sent := true } = a := Option.some.inj heq.symm
          rw [← this]
        · exact ih true a hmem

/-- **C5.** At stream flush, if the finally-resolved finish reason is
`tool-calls`, every tool-call accumulator not yet marked sent is
force-emitted as a tool-call event whose input is the accumulated argument
buffer when that buffer is parsable JSON and the empty-object literal
otherwise; after the forced loop no accumulator is left unsent. -/
theorem flush_forced_tool_call_emission (ctx : ModelCtx) (s : StreamState)
    (h : (applyFinishOverride s).finishReason.unified =
      UnifiedFinishReason.toolCalls) :
    (∀ a : ToolCallAcc, some a ∈ s.toolCalls → a.sent = false →
      ∃ md, StreamEvent.toolCallEv a.id a.name
          (if ctx.jsonOk a.arguments then a.arguments else "\x7b\x7d") md ∈
        flushStep ctx s) ∧
    (∀ a : ToolCallAcc, some a ∈ (flushForcedState ctx s).toolCalls →
      a.sent = true) := by
  constructor
  · intro a ha hsent
    have hmem := forceEmitLoop_mem ctx
      (applyFinishOverride s).accumulatedReasoningDetails s.toolCalls
      (applyFinishOverride s).reasoningDetailsAttachedToToolCall a ha hsent
    obtain ⟨md, hmd⟩ := hmem
    refine ⟨md, ?_⟩
    simp only [flushStep, h, if_true, applyFinishOverride_toolCalls]
    exact List.mem_append_left _ (List.mem_append_left _
      (List.mem_append_left _ hmd))
  · intro a ha
    simp only [flushForcedState, h, if_true,
      applyFinishOverride_toolCalls] at ha
    exact forceEmitLoop_allSent ctx _ s.toolCalls _ a ha

/-- Witness for C5: a stream that resolved to `tool-calls` with one
never-completed accumulator (unparsable buffer `oops`) force-emits it with
input coerced to the empty-object literal, and no accumulator stays
unsent. -/
theorem flush_forced_tool_call_emission_witness :
    (∃ md, StreamEvent.toolCallEv "t1" "f" "\x7b\x7d" md ∈
      flushStep { includeRawChunks := false, jsonOk := fun _ => false }
        { initState with
          toolCalls :=
            [some { id := "t1", name := "f", arguments := "oops"
                    inputStarted := true, sent := false }]
          finishReason :=
            { unified := UnifiedFinishReason.toolCalls
              raw := some "tool_calls" } }) ∧
    (∀ a : ToolCallAcc,
      some a ∈ (flushForcedState
          { includeRawChunks := false, jsonOk := fun _ => false }
          { initState with
            toolCalls :=
              [some { id := "t1", name := "f", arguments := "oops"
                      inputStarted := true, sent := false }]
            finishReason :=
              { unified := UnifiedFinishReason.toolCalls
                raw := some "tool_calls" } }).toolCalls →
      a.sent = true) := by
  have h := flush_forced_tool_call_emission
    { includeRawChunks := false, jsonOk := fun _ => false }
    { initState with
      toolCalls :=
        [some { id := "t1", name := "f", arguments := "oops"
                inputStarted := true, sent := false }]
      finishReason :=
        { unified := UnifiedFinishReason.toolCalls
          raw := some "tool_calls" } } (by decide)
  constructor
  · obtain ⟨md, hmd⟩ := h.1
      { id := "t1", name := "f", arguments := "oops"
        inputStarted := true, sent := false } (by simp) rfl
    exact ⟨md, by simpa using hmd⟩
  · exact h.2

/-! ## Claim C4: tool-call emission is not once-only in the merge branch -/

/-- **C4.** Evaluation of the transformer at the failing input: the first
chunk delivers a complete tool call (arguments already parsable JSON, so
the tool-call event is emitted and the accumulator is marked sent), and a
second argument fragment for the same index leaves the buffer parsable —
the merge branch re-checks parsability without consulting `sent` and emits
a second tool-call event with the same id, so the accumulator's emission
is not once-only.  (The flush branch does guard on `sent`, and the `sent`
flag exists precisely to mark an accumulator as already emitted, so the
missing guard in the merge branch contradicts the intent the rest of the
code enforces.) -/
theorem tool_call_duplicate_emission_on_refragment :
    countToolCallId
        (runStream
          { includeRawChunks := false, jsonOk := fun str => str = "\x7b\x7d" }
          [ParsedChunk.success (ChunkValue.data
              { id := none, model := none, provider := none, usage := none
                choices :=
                  [{ finish_reason := none
                     delta := (some
                       { reasoning_details := none, reasoning := none
                         content := none, annotations := none
                         tool_calls := (some
                           [{ index := 0, type := some "function"
                              id := some "call1"
                              function :=
                                some { name := some "f"
                                       arguments := some "\x7b\x7d" } }])
                         images := none }) }] }),
            ParsedChunk.success (ChunkValue.data
              { id := none, model := none, provider := none, usage := none
                choices :=
                  [{ finish_reason := none
                     delta := (some
                       { reasoning_details := none, reasoning := none
                         content := none, annotations := none
                         tool_calls := (some
                           [{ index := 0, type := none, id := none
                              function :=
                                some { name := none
                                       arguments := some "" } }])
                         images := none }) }] })]) "call1" = 2 := by
  decide

/-! ## Per-stage event classification lemmas -/

theorem handleReasoning_noReasoning (s : StreamState) (d : Delta)
    (h : deltaNoReasoning d = true) : handleReasoning s d = (s, []) := by
  simp only [deltaNoReasoning, Bool.and_eq_true, Bool.not_eq_true'] at h
  obtain ⟨h1, h2⟩ := h
  unfold handleReasoning
  cases hd : d.reasoning_details with
  | none => simp [h2]
  | some ds =>
    rw [hd] at h1
    simp only [List.isEmpty_iff] at h1
    subst h1
    simp [h2]

theorem handleReasoning_events_shape (s : StreamState) (d : Delta) :
    ∀ e ∈ (handleReasoning s d).2, isReasoningStartOrDelta e = true := by
  have hchunk : ∀ (s1 : StreamState) (t : String)
      (md : Option (List ReasoningDetail)),
      ∀ e ∈ (emitReasoningChunk s1 t md).2,
        isReasoningStartOrDelta e = true := by
    intro s1 t md e he
    unfold emitReasoningChunk at he
    by_cases hr : s1.reasoningStarted
    · simp only [hr, if_true, List.mem_singleton] at he
      subst he
      rfl
    · simp only [hr, Bool.false_eq_true, if_false, List.mem_cons,
        List.mem_singleton, List.not_mem_nil, or_false] at he
      rcases he with he | he <;> subst he <;> rfl
  have hdetail : ∀ (s1 : StreamState) (md : Option (List ReasoningDetail))
      (x : ReasoningDetail),
      ∀ e ∈ (emitForDetail s1 md x).2, isReasoningStartOrDelta e = true := by
    intro s1 md x e he
    unfold emitForDetail at he
    cases x with
    | text t sg f =>
      by_cases ht : jsTruthy t
      · simp only [ht, if_true] at he
        exact hchunk s1 _ md e he
      · simp [ht] at he
    | encrypted dat =>
      by_cases ht : jsTruthy dat
      · simp only [ht, if_true] at he
        exact hchunk s1 _ md e he
      · simp [ht] at he
    | summary sum =>
      by_cases ht : jsTruthy sum
      · simp only [ht, if_true] at he
        exact hchunk s1 _ md e he
      · simp [ht] at he
  have hloop : ∀ (ds : List ReasoningDetail) (s1 : StreamState)
      (md : Option (List ReasoningDetail)),
      ∀ e ∈ (emitDetailsLoop s1 md ds).2,
        isReasoningStartOrDelta e = true := by
    intro ds
    induction ds with
    | nil => intro s1 md e he; simp [emitDetailsLoop] at he
    | cons x ds ih =>
      intro s1 md e he
      simp only [emitDetailsLoop, List.mem_append] at he
      rcases he with he | he
      · exact hdetail s1 md x e he
      · exact ih _ md e he
  intro e he
  unfold handleReasoning at he
  cases hd : d.reasoning_details with
  | none =>
    rw [hd] at he
    by_cases ht : jsTruthy d.reasoning
    · simp only [ht, if_true] at he
      exact hchunk s _ none e he
    · simp [ht] at he
  | some ds =>
    rw [hd] at he
    by_cases hlen : ds.length > 0
    · simp only [hlen, if_true] at he
      exact hloop ds _ (some ds) e he
    · simp only [hlen, if_false] at he
      by_cases ht : jsTruthy d.reasoning
      · simp only [ht, if_true] at he
        exact hchunk s _ none e he
      · simp [ht] at he

theorem handleContent_false (s : StreamState) (c : Option String)
    (hc : jsTruthy c = false) : handleContent s c = (s, []) := by
  simp [handleContent, hc]

theorem handleContent_transition (s : StreamState) (c : Option String)
    (hc : jsTruthy c = true) (hr : s.reasoningStarted = true)
    (ht : s.textStarted = false) :
    handleContent s c =
      ({ s with
          reasoningStarted := false
          textStarted := true
          textId := some (jsOrStr s.osmResponseId generateId) },
        [StreamEvent.reasoningEnd (jsOrStr s.reasoningId generateId)
            (if s.accumulatedReasoningDetails.length > 0 then
              some s.accumulatedReasoningDetails
            else none),
          StreamEvent.textStart (jsOrStr s.osmResponseId generateId),
          StreamEvent.textDelta (jsOrStr s.osmResponseId generateId)
            (c.getD "")]) := by
  simp only [handleContent, hc, hr, ht, Bool.not_false, Bool.and_self,
    if_true, if_false, Bool.true_and, Bool.false_eq_true]
  simp [jsOrStr_some_of_ne _ (jsOrStr_generateId_ne _)]

theorem handleContent_start (s : StreamState) (c : Option String)
    (hc : jsTruthy c = true) (hr : s.reasoningStarted = false)
    (ht : s.textStarted = false) :
    handleContent s c =
      ({ s with
          textStarted := true
          textId := some (jsOrStr s.osmResponseId generateId) },
        [StreamEvent.textStart (jsOrStr s.osmResponseId generateId),
          StreamEvent.textDelta (jsOrStr s.osmResponseId generateId)
            (c.getD "")]) := by
  simp only [handleContent, hc, hr, ht, Bool.false_and, if_false,
    Bool.false_eq_true]
  simp [jsOrStr_some_of_ne _ (jsOrStr_generateId_ne _)]

theorem handleContent_continue (s : StreamState) (c : Option String)
    (hc : jsTruthy c = true) (ht : s.textStarted = true) :
    handleContent s c =
      (s, [StreamEvent.textDelta (jsOrStr s.textId generateId)
        (c.getD "")]) := by
  simp only [handleContent, hc, ht, Bool.not_true, Bool.and_false, if_false,
    if_true, Bool.false_eq_true]
  simp

theorem handleContent_no_rsd (s : StreamState) (c : Option String) :
    ∀ e ∈ (handleContent s c).2, isReasoningStartOrDelta e = false := by
  intro e he
  by_cases hc : jsTruthy c
  · by_cases ht : s.textStarted
    · rw [handleContent_continue s c hc ht] at he
      simp only [List.mem_singleton] at he
      subst he
      rfl
    · by_cases hr : s.reasoningStarted
      · rw [handleContent_transition s c hc hr (by simpa using ht)] at he
        simp only [List.mem_cons, List.mem_singleton, List.not_mem_nil,
          or_false] at he
        rcases he with he | he | he <;> subst he <;> rfl
      · rw [handleContent_start s c hc (by simpa using hr)
          (by simpa using ht)] at he
        simp only [List.mem_cons, List.mem_singleton, List.not_mem_nil,
          or_false] at he
        rcases he with he | he <;> subst he <;> rfl
  · rw [handleContent_false s c (by simpa using hc)] at he
    simp at he

theorem handleAnnots_events_shape (anns : List StreamAnnot) :
    ∀ (s : StreamState), ∀ e ∈ (handleAnnots s anns).2,
      isReasoningStartOrDelta e = false ∧ isTextStart e = false ∧
        isReasoningEnd e = false ∧ toolCallMd e = none := by
  induction anns with
  | nil => intro s e he; simp [handleAnnots] at he
  | cons a rest ih =>
    intro s e he
    cases a with
    | urlCitation url title =>
      simp only [handleAnnots, List.mem_cons] at he
      rcases he with he | he
      · subst he
        exact ⟨rfl, rfl, rfl, rfl⟩
      · exact ih s e he
    | fileAnn wf =>
      simp only [handleAnnots] at he
      exact ih _ e he

theorem isToolish_props (e : StreamEvent) (h : isToolish e = true) :
    isReasoningStartOrDelta e = false ∧ isTextStart e = false ∧
      isReasoningEnd e = false := by
  cases e <;> simp_all [isToolish, isReasoningStartOrDelta, isTextStart,
    isReasoningEnd]

theorem processOneToolCallDelta_events_toolish (ctx : ModelCtx)
    (s : StreamState) (tcd : ToolCallDelta) :
    ((processOneToolCallDelta ctx s tcd).events).all isToolish = true := by
  rcases harr : arrGet s.toolCalls tcd.index with _ | tc <;>
    (unfold processOneToolCallDelta
     dsimp only
     rw [harr]
     repeat' split) <;>
    simp [isToolish]

theorem processToolCallDeltas_events_toolish (ctx : ModelCtx)
    (tcs : List ToolCallDelta) :
    ∀ s : StreamState,
      ((processToolCallDeltas ctx s tcs).events).all isToolish = true := by
  induction tcs with
  | nil => intro s; simp [processToolCallDeltas]
  | cons tcd rest ih =>
    intro s
    rw [processToolCallDeltas]
    cases he : (processOneToolCallDelta ctx s tcd).err with
    | some ex =>
      exact processOneToolCallDelta_events_toolish ctx s tcd
    | none =>
      show ((processOneToolCallDelta ctx s tcd).events ++
        (processToolCallDeltas ctx (processOneToolCallDelta ctx s tcd).state
          rest).events).all isToolish = true
      rw [List.all_append]
      exact Bool.and_eq_true_iff.mpr
        ⟨processOneToolCallDelta_events_toolish ctx s tcd, ih _⟩

theorem rsd_not_ts (e : StreamEvent) (h : isReasoningStartOrDelta e = true) :
    isTextStart e = false := by
  cases e <;> simp_all [isReasoningStartOrDelta, isTextStart]

theorem dtfts_mem (l : List StreamEvent) (e : StreamEvent)
    (he : e ∈ dropThroughFirstTextStart l) : e ∈ l := by
  induction l with
  | nil => simp [dropThroughFirstTextStart] at he
  | cons x rest ih =>
    rw [dropThroughFirstTextStart] at he
    by_cases hx : isTextStart x
    · rw [if_pos hx] at he
      exact List.mem_cons_of_mem _ he
    · rw [if_neg hx] at he
      exact List.mem_cons_of_mem _ (ih he)

theorem dtfts_append_no_ts (l1 l2 : List StreamEvent)
    (h : ∀ e ∈ l1, isTextStart e = false) :
    dropThroughFirstTextStart (l1 ++ l2) = dropThroughFirstTextStart l2 := by
  induction l1 with
  | nil => rfl
  | cons x rest ih =>
    rw [List.cons_append, dropThroughFirstTextStart,
      if_neg (by simp [h x (by simp)])]
    exact ih (fun e he => h e (List.mem_cons_of_mem _ he))

theorem handleReasoning_no_ts (s : StreamState) (d : Delta) :
    ∀ e ∈ (handleReasoning s d).2, isTextStart e = false :=
  fun e he => rsd_not_ts e (handleReasoning_events_shape s d e he)

theorem handleAnnotsOpt_no_rsd (s : StreamState)
    (o : Option (List StreamAnnot)) :
    ∀ e ∈ (handleAnnotsOpt s o).2, isReasoningStartOrDelta e = false := by
  cases o with
  | none => intro e he; simp [handleAnnotsOpt] at he
  | some anns =>
    intro e he
    exact (handleAnnots_events_shape anns s e he).1

theorem processToolCallDeltasOpt_events_toolish (ctx : ModelCtx)
    (s : StreamState) (o : Option (List ToolCallDelta)) :
    ((processToolCallDeltasOpt ctx s o).events).all isToolish = true := by
  cases o with
  | none => simp [processToolCallDeltasOpt]
  | some tcs => exact processToolCallDeltas_events_toolish ctx tcs s

theorem imagesEvents_no_rsd (o : Option (List String)) :
    ∀ e ∈ imagesEvents o, isReasoningStartOrDelta e = false := by
  cases o with
  | none => intro e he; simp [imagesEvents] at he
  | some imgs =>
    intro e he
    simp only [imagesEvents, List.mem_map] at he
    obtain ⟨url, _, rfl⟩ := he
    rfl

theorem matchErrImages_no_rsd (o : Option StreamError)
    (i : Option (List String)) :
    ∀ e ∈ (match o with
      | none => imagesEvents i
      | some _ => ([] : List StreamEvent)),
      isReasoningStartOrDelta e = false := by
  cases o with
  | none => exact imagesEvents_no_rsd i
  | some ex => intro e he; simp at he

theorem processDelta_dtfts (ctx : ModelCtx) (s : StreamState) (d : Delta) :
    ∀ e ∈ dropThroughFirstTextStart ((processDelta ctx s d).events),
      isReasoningStartOrDelta e = false := by
  intro e he
  unfold processDelta at he
  dsimp only at he
  rw [List.append_assoc, List.append_assoc, List.append_assoc,
    dtfts_append_no_ts _ _ (handleReasoning_no_ts s d)] at he
  have hmem := dtfts_mem _ _ he
  rcases List.mem_append.mp hmem with h2 | hrest
  · exact handleContent_no_rsd _ _ e h2
  · rcases List.mem_append.mp hrest with h3 | hrest2
    · exact handleAnnotsOpt_no_rsd _ _ e h3
    · rcases List.mem_append.mp hrest2 with h4 | h5
      · exact (isToolish_props e
          (List.all_eq_true.mp
            (processToolCallDeltasOpt_events_toolish ctx _ _) e h4)).1
      · exact matchErrImages_no_rsd _ _ e h5

theorem mem_ite_singleton {P : Prop} [Decidable P] (x e : StreamEvent)
    (he : e ∈ (if P then [x] else [])) : e = x := by
  split at he
  · simpa using he
  · simp at he

theorem dtfts_eq_nil (l : List StreamEvent)
    (h : ∀ e ∈ l, isTextStart e = false) :
    dropThroughFirstTextStart l = [] := by
  have := dtfts_append_no_ts l [] h
  simpa using this

theorem chunkPreEvents_props (ctx : ModelCtx) (c : ChunkData) :
    ∀ e ∈ chunkPreEvents ctx c,
      isTextStart e = false ∧ isReasoningStartOrDelta e = false ∧
        toolCallMd e = none := by
  intro e he
  unfold chunkPreEvents at he
  rcases List.mem_append.mp he with hh | h3
  · rcases List.mem_append.mp hh with h1 | h2
    · rw [mem_ite_singleton _ _ h1]
      exact ⟨rfl, rfl, rfl⟩
    · rw [mem_ite_singleton _ _ h2]
      exact ⟨rfl, rfl, rfl⟩
  · rw [mem_ite_singleton _ _ h3]
    exact ⟨rfl, rfl, rfl⟩

theorem processChunk_dtfts (ctx : ModelCtx) (s : StreamState)
    (pr : ParsedChunk) :
    ∀ e ∈ dropThroughFirstTextStart ((processChunk ctx s pr).events),
      isReasoningStartOrDelta e = false := by
  have hpre : ∀ (b : Bool) (i m : List StreamEvent),
      (∀ e ∈ i, isTextStart e = false) →
      (∀ e ∈ m, isTextStart e = false) →
      ∀ e ∈ ((if b = true then [StreamEvent.raw] else []) ++ i ++ m),
        isTextStart e = false := by
    intro b i m hi hm e he
    rcases List.mem_append.mp he with hh | hm2
    · rcases List.mem_append.mp hh with h1 | h2
      · rw [mem_ite_singleton _ _ h1]
        rfl
      · exact hi e h2
    · exact hm e hm2
  intro e he
  cases pr with
  | failure =>
    rw [show (processChunk ctx s ParsedChunk.failure).events =
        (if ctx.includeRawChunks = true then [StreamEvent.raw] else []) ++
          [StreamEvent.errorEv] from rfl] at he
    rw [dtfts_append_no_ts _ _
      (fun x hx => by rw [mem_ite_singleton _ _ hx]; rfl)] at he
    simp [dropThroughFirstTextStart, isTextStart] at he
  | success v =>
    cases v with
    | errorPayload =>
      rw [show (processChunk ctx s
            (ParsedChunk.success ChunkValue.errorPayload)).events =
          (if ctx.includeRawChunks = true then [StreamEvent.raw] else []) ++
            [StreamEvent.errorEv] from rfl] at he
      rw [dtfts_append_no_ts _ _
        (fun x hx => by rw [mem_ite_singleton _ _ hx]; rfl)] at he
      simp [dropThroughFirstTextStart, isTextStart] at he
    | data c =>
      unfold processChunk at he
      dsimp only at he
      revert he
      cases hd : (c.choices.head?).bind (fun ch => ch.delta) with
      | none =>
        intro he
        dsimp only at he
        rw [dtfts_eq_nil] at he
        · simp at he
        · exact fun x hx => (chunkPreEvents_props ctx c x hx).1
      | some d =>
        intro he
        dsimp only at he
        rw [dtfts_append_no_ts _ _
          (fun x hx => (chunkPreEvents_props ctx c x hx).1)] at he
        exact processDelta_dtfts ctx _ d e he

theorem forceEmitLoop_events_toolish (ctx : ModelCtx)
    (details : List ReasoningDetail) (l : List (Option ToolCallAcc)) :
    ∀ attached : Bool,
      ((forceEmitLoop ctx details attached l).2.2).all isToolish = true := by
  induction l with
  | nil => intro attached; simp [forceEmitLoop]
  | cons o rest ih =>
    intro attached
    cases o with
    | none =>
      rw [forceEmitLoop]
      exact ih attached
    | some acc =>
      rw [forceEmitLoop]
      by_cases hs : acc.sent
      · rw [if_pos hs]
        exact ih attached
      · rw [if_neg hs]
        simp only [List.all_cons, Bool.and_eq_true]
        exact ⟨rfl, ih true⟩

theorem mem_pair_ite {α : Type} {P : Prop} [Decidable P]
    (x y : StreamState × List α) (e : α)
    (he : e ∈ (if P then x else y).2) : e ∈ x.2 ∨ e ∈ y.2 := by
  split at he
  · exact Or.inl he
  · exact Or.inr he

theorem flushStep_no_rsd (ctx : ModelCtx) (s : StreamState) :
    ∀ e ∈ flushStep ctx s,
      isReasoningStartOrDelta e = false ∧ isTextStart e = false := by
  intro e he
  unfold flushStep at he
  dsimp only at he
  rcases List.mem_append.mp he with hh | hfin
  · rcases List.mem_append.mp hh with hh2 | h3
    · rcases List.mem_append.mp hh2 with h1 | h2
      · rcases mem_pair_ite _ _ _ h1 with hf | hf
        · have := isToolish_props e
            (List.all_eq_true.mp
              (forceEmitLoop_events_toolish ctx _ _ _) e hf)
          exact ⟨this.1, this.2.1⟩
        · simp at hf
      · rw [mem_ite_singleton _ _ h2]
        exact ⟨rfl, rfl⟩
    · rw [mem_ite_singleton _ _ h3]
      exact ⟨rfl, rfl⟩
  · simp only [List.mem_singleton] at hfin
    subst hfin
    exact ⟨rfl, rfl⟩

theorem chunkNoReasoning_delta (c : ChunkData) (d : Delta)
    (h : chunkNoReasoning (ParsedChunk.success (ChunkValue.data c)) = true)
    (hd : (c.choices.head?).bind (fun ch => ch.delta) = some d) :
    deltaNoReasoning d = true := by
  unfold chunkNoReasoning at h
  dsimp only at h
  cases hh : c.choices.head? with
  | none => rw [hh] at hd; simp at hd
  | some ch =>
    rw [hh] at h hd
    dsimp only at h
    simp only [Option.some_bind] at hd
    rw [hd] at h
    dsimp only at h
    exact h

theorem processDelta_noReasoning_events (ctx : ModelCtx) (s : StreamState)
    (d : Delta) (h : deltaNoReasoning d = true) :
    ∀ e ∈ (processDelta ctx s d).events,
      isReasoningStartOrDelta e = false := by
  intro e he
  unfold processDelta at he
  dsimp only at he
  rw [handleReasoning_noReasoning s d h] at he
  dsimp only at he
  rw [List.nil_append] at he
  rcases List.mem_append.mp he with hh | h5
  · rcases List.mem_append.mp hh with hh2 | h4
    · rcases List.mem_append.mp hh2 with h2 | h3
      · exact handleContent_no_rsd _ _ e h2
      · exact handleAnnotsOpt_no_rsd _ _ e h3
    · exact (isToolish_props e
        (List.all_eq_true.mp
          (processToolCallDeltasOpt_events_toolish ctx _ _) e h4)).1
  · exact matchErrImages_no_rsd _ _ e h5

theorem processChunk_noReasoning_events (ctx : ModelCtx) (s : StreamState)
    (pr : ParsedChunk) (h : chunkNoReasoning pr = true) :
    ∀ e ∈ (processChunk ctx s pr).events,
      isReasoningStartOrDelta e = false := by
  intro e he
  cases pr with
  | failure =>
    rw [show (processChunk ctx s ParsedChunk.failure).events =
        (if ctx.includeRawChunks = true then [StreamEvent.raw] else []) ++
          [StreamEvent.errorEv] from rfl] at he
    rcases List.mem_append.mp he with h1 | h2
    · rw [mem_ite_singleton _ _ h1]
      rfl
    · simp only [List.mem_singleton] at h2
      subst h2
      rfl
  | success v =>
    cases v with
    | errorPayload =>
      rw [show (processChunk ctx s
            (ParsedChunk.success ChunkValue.errorPayload)).events =
          (if ctx.includeRawChunks = true then [StreamEvent.raw] else []) ++
            [StreamEvent.errorEv] from rfl] at he
      rcases List.mem_append.mp he with h1 | h2
      · rw [mem_ite_singleton _ _ h1]
        rfl
      · simp only [List.mem_singleton] at h2
        subst h2
        rfl
    | data c =>
      unfold processChunk at he
      dsimp only at he
      revert he
      cases hd : (c.choices.head?).bind (fun ch => ch.delta) with
      | none =>
        intro he
        dsimp only at he
        exact (chunkPreEvents_props ctx c e he).2.1
      | some d =>
        intro he
        dsimp only at he
        rcases List.mem_append.mp he with h1 | h2
        · exact (chunkPreEvents_props ctx c e h1).2.1
        · exact processDelta_noReasoning_events ctx _ d
            (chunkNoReasoning_delta c d h hd) e h2

theorem runChunksFrom_noReasoning_events (ctx : ModelCtx)
    (B : List ParsedChunk) (h : ∀ c ∈ B, chunkNoReasoning c = true) :
    ∀ s : StreamState, ∀ e ∈ (runChunksFrom ctx s B).events,
      isReasoningStartOrDelta e = false := by
  induction B with
  | nil => intro s e he; simp [runChunksFrom] at he
  | cons c rest ih =>
    intro s e he
    rw [runChunksFrom] at he
    revert he
    cases herr : (processChunk ctx s c).err with
    | some ex =>
      intro he
      dsimp only at he
      exact processChunk_noReasoning_events ctx s c (h c (by simp)) e he
    | none =>
      intro he
      dsimp only at he
      rcases List.mem_append.mp he with h1 | h2
      · exact processChunk_noReasoning_events ctx s c (h c (by simp)) e h1
      · exact ih (fun x hx => h x (List.mem_cons_of_mem _ hx)) _ e h2

theorem runChunksFrom_append (ctx : ModelCtx) (A B : List ParsedChunk) :
    ∀ s : StreamState, (runChunksFrom ctx s A).err = none →
      runChunksFrom ctx s (A ++ B) =
        { state := (runChunksFrom ctx
            (runChunksFrom ctx s A).state B).state
          events := (runChunksFrom ctx s A).events ++
            (runChunksFrom ctx (runChunksFrom ctx s A).state B).events
          err := (runChunksFrom ctx (runChunksFrom ctx s A).state B).err } :=
  by
  induction A with
  | nil => intro s h; simp [runChunksFrom]
  | cons c rest ih =>
    intro s h
    rw [List.cons_append, runChunksFrom]
    rw [runChunksFrom] at h
    revert h
    cases herr : (processChunk ctx s c).err with
    | some ex =>
      intro h
      dsimp only at h
      exact absurd h (by simp)
    | none =>
      intro h
      dsimp only at h ⊢
      rw [ih _ h]
      conv_rhs => rw [runChunksFrom]
      rw [herr]
      dsimp only
      rw [List.append_assoc]

/-! ## Claim C3: reasoning after text-start -/

/-- Counterexample to C3 as stated: a chunk carrying a reasoning delta
after text content began makes the transformer emit a reasoning-start (and
reasoning-delta) after the first text-start. -/
theorem reasoning_reopened_after_text_start :
    ((dropThroughFirstTextStart
        (runStream
          { includeRawChunks := false, jsonOk := fun _ => false }
          [ParsedChunk.success (ChunkValue.data
              { id := none, model := none, provider := none, usage := none
                choices :=
                  [{ finish_reason := none
                     delta := (some
                       { reasoning_details := none, reasoning := none
                         content := some "hi", annotations := none
                         tool_calls := none, images := none }) }] }),
            ParsedChunk.success (ChunkValue.data
              { id := none, model := none, provider := none, usage := none
                choices :=
                  [{ finish_reason := none
                     delta := (some
                       { reasoning_details :=
                           (some [ReasoningDetail.text (some "late") none
                             none])
                         reasoning := none
                         content := none, annotations := none
                         tool_calls := none, images := none }) }] })])).any
      isReasoningStartOrDelta) = true := by
  decide

/-- **C3 (amended).** Within one chunk's event output, no reasoning-start
or reasoning-delta is ever emitted after the first text-start; and over a
whole stream, once text has started, reasoning events can only come from a
later chunk that itself carries reasoning content: for every stream whose
chunks after a text-starting prefix all carry no reasoning content, the
events emitted after that prefix (including the flush) contain no
reasoning-start and no reasoning-delta. -/
theorem no_reasoning_after_text_start_amended :
    (∀ (ctx : ModelCtx) (s : StreamState) (pr : ParsedChunk),
      ∀ e ∈ dropThroughFirstTextStart ((processChunk ctx s pr).events),
        isReasoningStartOrDelta e = false) ∧
    (∀ (ctx : ModelCtx) (A B : List ParsedChunk),
      (runChunksFrom ctx initState A).err = none →
      (runChunksFrom ctx initState A).state.textStarted = true →
      (∀ c ∈ B, chunkNoReasoning c = true) →
      ∃ tail, runStream ctx (A ++ B) =
          (runChunksFrom ctx initState A).events ++ tail ∧
        ∀ e ∈ tail, isReasoningStartOrDelta e = false) := by
  constructor
  · exact fun ctx s pr => processChunk_dtfts ctx s pr
  · intro ctx A B hA _hTS hB
    have happ := runChunksFrom_append ctx A B initState hA
    unfold runStream
    rw [happ]
    cases hBerr :
        (runChunksFrom ctx (runChunksFrom ctx initState A).state B).err with
    | some ex =>
      refine ⟨(runChunksFrom ctx (runChunksFrom ctx initState A).state
        B).events, rfl, ?_⟩
      intro e he
      exact runChunksFrom_noReasoning_events ctx B hB _ e he
    | none =>
      refine ⟨(runChunksFrom ctx (runChunksFrom ctx initState A).state
          B).events ++
        flushStep ctx (runChunksFrom ctx
          (runChunksFrom ctx initState A).state B).state,
        by dsimp only; rw [List.append_assoc], ?_⟩
      intro e he
      rcases List.mem_append.mp he with h1 | h2
      · exact runChunksFrom_noReasoning_events ctx B hB _ e h1
      · exact (flushStep_no_rsd ctx _ e h2).1

/-- Witness for the amended C3 at a concrete stream: text starts in the
first chunk and the later chunks carry no reasoning, so nothing after the
prefix is a reasoning-start or reasoning-delta. -/
theorem no_reasoning_after_text_start_amended_witness :
    ∃ tail, runStream { includeRawChunks := false, jsonOk := fun _ => false }
        ([ParsedChunk.success (ChunkValue.data
            { id := none, model := none, provider := none, usage := none
              choices :=
                [{ finish_reason := none
                   delta := (some
                     { reasoning_details := none, reasoning := none
                       content := some "hi", annotations := none
                       tool_calls := none, images := none }) }] })] ++
          [ParsedChunk.success (ChunkValue.data
            { id := none, model := none, provider := none, usage := none
              choices :=
                [{ finish_reason := none
                   delta := (some
                     { reasoning_details := none, reasoning := none
                       content := some "more", annotations := none
                       tool_calls := none, images := none }) }] })]) =
        (runChunksFrom { includeRawChunks := false, jsonOk := fun _ => false }
          initState
          [ParsedChunk.success (ChunkValue.data
            { id := none, model := none, provider := none, usage := none
              choices :=
                [{ finish_reason := none
                   delta := (some
                     { reasoning_details := none, reasoning := none
                       content := some "hi", annotations := none
                       tool_calls := none, images := none }) }] })]).events ++
          tail ∧
      ∀ e ∈ tail, isReasoningStartOrDelta e = false :=
  no_reasoning_after_text_start_amended.2
    { includeRawChunks := false, jsonOk := fun _ => false }
    [ParsedChunk.success (ChunkValue.data
      { id := none, model := none, provider := none, usage := none
        choices :=
          [{ finish_reason := none
             delta := (some
               { reasoning_details := none, reasoning := none
                 content := some "hi", annotations := none
                 tool_calls := none, images := none }) }] })]
    [ParsedChunk.success (ChunkValue.data
      { id := none, model := none, provider := none, usage := none
        choices :=
          [{ finish_reason := none
             delta := (some
               { reasoning_details := none, reasoning := none
                 content := some "more", annotations := none
                 tool_calls := none, images := none }) }] })]
    (by decide) (by decide) (by decide)

/-! ## Claim C6: only the first tool call carries reasoning metadata -/

theorem attachInv_refl (b : Bool) : attachInv b [] b := by
  cases b with
  | true => exact ⟨rfl, by simp⟩
  | false => rfl

theorem attachInv_comp {b m a : Bool}
    {l1 l2 : List (Option (List ReasoningDetail))}
    (h1 : attachInv b l1 m) (h2 : attachInv m l2 a) :
    attachInv b (l1 ++ l2) a := by
  cases b with
  | true =>
    obtain ⟨hm, hall1⟩ := h1
    subst hm
    obtain ⟨ha, hall2⟩ := h2
    refine ⟨ha, ?_⟩
    intro x hx
    rcases List.mem_append.mp hx with h | h
    · exact hall1 x h
    · exact hall2 x h
  | false =>
    cases l1 with
    | nil =>
      have hm : m = false := h1
      subst hm
      simpa using h2
    | cons x rest =>
      obtain ⟨hm, hx, hall1⟩ := h1
      subst hm
      obtain ⟨ha, hall2⟩ := h2
      refine ⟨ha, hx, ?_⟩
      intro y hy
      rcases List.mem_append.mp hy with h | h
      · exact hall1 y h
      · exact hall2 y h

theorem toolCallMds_append (l1 l2 : List StreamEvent) :
    toolCallMds (l1 ++ l2) = toolCallMds l1 ++ toolCallMds l2 := by
  simp [toolCallMds, List.filterMap_append]

theorem toolCallMds_nil_of (l : List StreamEvent)
    (h : ∀ e ∈ l, toolCallMd e = none) : toolCallMds l = [] := by
  simp only [toolCallMds, List.filterMap_eq_nil_iff]
  exact h

theorem rsd_no_tc (e : StreamEvent) (h : isReasoningStartOrDelta e = true) :
    toolCallMd e = none := by
  cases e <;> simp_all [isReasoningStartOrDelta, toolCallMd]

theorem handleContent_no_tc (s : StreamState) (c : Option String) :
    ∀ e ∈ (handleContent s c).2, toolCallMd e = none := by
  intro e he
  by_cases hc : jsTruthy c
  · by_cases ht : s.textStarted
    · rw [handleContent_continue s c hc ht] at he
      simp only [List.mem_singleton] at he
      subst he
      rfl
    · by_cases hr : s.reasoningStarted
      · rw [handleContent_transition s c hc hr (by simpa using ht)] at he
        simp only [List.mem_cons, List.mem_singleton, List.not_mem_nil,
          or_false] at he
        rcases he with he | he | he <;> subst he <;> rfl
      · rw [handleContent_start s c hc (by simpa using hr)
          (by simpa using ht)] at he
        simp only [List.mem_cons, List.mem_singleton, List.not_mem_nil,
          or_false] at he
        rcases he with he | he <;> subst he <;> rfl
  · rw [handleContent_false s c (by simpa using hc)] at he
    simp at he

theorem emitReasoningChunk_state (s : StreamState) (t : String)
    (md : Option (List ReasoningDetail)) :
    (emitReasoningChunk s t md).1.reasoningDetailsAttachedToToolCall =
        s.reasoningDetailsAttachedToToolCall ∧
      (emitReasoningChunk s t md).1.textStarted = s.textStarted ∧
      (emitReasoningChunk s t md).1.accumulatedReasoningDetails =
        s.accumulatedReasoningDetails := by
  unfold emitReasoningChunk
  split <;> exact ⟨rfl, rfl, rfl⟩

theorem emitForDetail_state (s : StreamState)
    (md : Option (List ReasoningDetail)) (d : ReasoningDetail) :
    (emitForDetail s md d).1.reasoningDetailsAttachedToToolCall =
        s.reasoningDetailsAttachedToToolCall ∧
      (emitForDetail s md d).1.textStarted = s.textStarted ∧
      (emitForDetail s md d).1.accumulatedReasoningDetails =
        s.accumulatedReasoningDetails := by
  cases d with
  | text t sg f =>
    by_cases ht : jsTruthy t
    · simp only [emitForDetail, ht, if_true]
      exact emitReasoningChunk_state s _ md
    · simp [emitForDetail, ht]
  | encrypted dat =>
    by_cases ht : jsTruthy dat
    · simp only [emitForDetail, ht, if_true]
      exact emitReasoningChunk_state s _ md
    · simp [emitForDetail, ht]
  | summary sum =>
    by_cases ht : jsTruthy sum
    · simp only [emitForDetail, ht, if_true]
      exact emitReasoningChunk_state s _ md
    · simp [emitForDetail, ht]

theorem emitDetailsLoop_state (ds : List ReasoningDetail) :
    ∀ (s : StreamState) (md : Option (List ReasoningDetail)),
      (emitDetailsLoop s md ds).1.reasoningDetailsAttachedToToolCall =
          s.reasoningDetailsAttachedToToolCall ∧
        (emitDetailsLoop s md ds).1.textStarted = s.textStarted ∧
        (emitDetailsLoop s md ds).1.accumulatedReasoningDetails =
          s.accumulatedReasoningDetails := by
  induction ds with
  | nil => intro s md; exact ⟨rfl, rfl, rfl⟩
  | cons d rest ih =>
    intro s md
    have h1 := emitForDetail_state s md d
    have h2 := ih (emitForDetail s md d).1 md
    rw [emitDetailsLoop]
    dsimp only
    exact ⟨h2.1.trans h1.1, h2.2.1.trans h1.2.1, h2.2.2.trans h1.2.2⟩

theorem handleReasoning_state (s : StreamState) (d : Delta) :
    (handleReasoning s d).1.reasoningDetailsAttachedToToolCall =
        s.reasoningDetailsAttachedToToolCall ∧
      (handleReasoning s d).1.textStarted = s.textStarted := by
  unfold handleReasoning
  cases hd : d.reasoning_details with
  | none =>
    by_cases ht : jsTruthy d.reasoning
    · simp only [ht, if_true]
      have := emitReasoningChunk_state s (d.reasoning.getD "") none
      exact ⟨this.1, this.2.1⟩
    · simp [ht]
  | some ds =>
    by_cases hlen : ds.length > 0
    · simp only [hlen, if_true]
      have := emitDetailsLoop_state ds
        { s with accumulatedReasoningDetails :=
            accumulateDetails s.accumulatedReasoningDetails ds } (some ds)
      exact ⟨this.1, this.2.1⟩
    · simp only [hlen, if_false]
      by_cases ht : jsTruthy d.reasoning
      · simp only [ht, if_true]
        have := emitReasoningChunk_state s (d.reasoning.getD "") none
        exact ⟨this.1, this.2.1⟩
      · simp [ht]

theorem handleContent_state (s : StreamState) (c : Option String) :
    (handleContent s c).1.reasoningDetailsAttachedToToolCall =
        s.reasoningDetailsAttachedToToolCall ∧
      (handleContent s c).1.accumulatedReasoningDetails =
        s.accumulatedReasoningDetails := by
  by_cases hc : jsTruthy c
  · by_cases ht : s.textStarted
    · rw [handleContent_continue s c hc ht]
      exact ⟨rfl, rfl⟩
    · by_cases hr : s.reasoningStarted
      · rw [handleContent_transition s c hc hr (by simpa using ht)]
        exact ⟨rfl, rfl⟩
      · rw [handleContent_start s c hc (by simpa using hr)
          (by simpa using ht)]
        exact ⟨rfl, rfl⟩
  · rw [handleContent_false s c (by simpa using hc)]
    exact ⟨rfl, rfl⟩

theorem handleAnnots_state (anns : List StreamAnnot) :
    ∀ s : StreamState,
      (handleAnnots s anns).1.reasoningDetailsAttachedToToolCall =
          s.reasoningDetailsAttachedToToolCall ∧
        (handleAnnots s anns).1.textStarted = s.textStarted ∧
        (handleAnnots s anns).1.reasoningStarted = s.reasoningStarted ∧
        (handleAnnots s anns).1.accumulatedReasoningDetails =
          s.accumulatedReasoningDetails := by
  induction anns with
  | nil => intro s; exact ⟨rfl, rfl, rfl, rfl⟩
  | cons a rest ih =>
    intro s
    cases a with
    | urlCitation url title =>
      rw [handleAnnots]
      dsimp only
      exact ih s
    | fileAnn wf =>
      rw [handleAnnots]
      by_cases hw : wf
      · subst hw
        rw [if_pos rfl]
        exact ih _
      · simp only [Bool.not_eq_true] at hw
        subst hw
        rw [if_neg (by simp)]
        exact ih s

theorem handleAnnotsOpt_state (s : StreamState)
    (o : Option (List StreamAnnot)) :
    (handleAnnotsOpt s o).1.reasoningDetailsAttachedToToolCall =
        s.reasoningDetailsAttachedToToolCall ∧
      (handleAnnotsOpt s o).1.textStarted = s.textStarted ∧
      (handleAnnotsOpt s o).1.reasoningStarted = s.reasoningStarted ∧
      (handleAnnotsOpt s o).1.accumulatedReasoningDetails =
        s.accumulatedReasoningDetails := by
  cases o with
  | none => exact ⟨rfl, rfl, rfl, rfl⟩
  | some anns => exact handleAnnots_state anns s

theorem processOneToolCallDelta_state (ctx : ModelCtx) (s : StreamState)
    (tcd : ToolCallDelta) :
    (processOneToolCallDelta ctx s tcd).state.textStarted = s.textStarted ∧
      (processOneToolCallDelta ctx s tcd).state.reasoningStarted =
        s.reasoningStarted ∧
      (processOneToolCallDelta ctx s tcd).state.accumulatedReasoningDetails =
        s.accumulatedReasoningDetails ∧
      (processOneToolCallDelta ctx s tcd).state.textId = s.textId ∧
      (processOneToolCallDelta ctx s tcd).state.reasoningId =
        s.reasoningId := by
  rcases harr : arrGet s.toolCalls tcd.index with _ | tc <;>
    (unfold processOneToolCallDelta
     dsimp only
     rw [harr]
     repeat' split) <;>
    exact ⟨rfl, rfl, rfl, rfl, rfl⟩

theorem processToolCallDeltas_state (ctx : ModelCtx)
    (tcs : List ToolCallDelta) :
    ∀ s : StreamState,
      (processToolCallDeltas ctx s tcs).state.textStarted = s.textStarted ∧
        (processToolCallDeltas ctx s tcs).state.reasoningStarted =
          s.reasoningStarted ∧
        (processToolCallDeltas ctx s tcs).state.accumulatedReasoningDetails
          = s.accumulatedReasoningDetails ∧
        (processToolCallDeltas ctx s tcs).state.textId = s.textId ∧
        (processToolCallDeltas ctx s tcs).state.reasoningId =
          s.reasoningId := by
  induction tcs with
  | nil => intro s; exact ⟨rfl, rfl, rfl, rfl, rfl⟩
  | cons tcd rest ih =>
    intro s
    rw [processToolCallDeltas]
    cases herr : (processOneToolCallDelta ctx s tcd).err with
    | some ex =>
      exact processOneToolCallDelta_state ctx s tcd
    | none =>
      dsimp only
      have h1 := processOneToolCallDelta_state ctx s tcd
      have h2 := ih (processOneToolCallDelta ctx s tcd).state
      exact ⟨h2.1.trans h1.1, h2.2.1.trans h1.2.1, h2.2.2.1.trans h1.2.2.1,
        h2.2.2.2.1.trans h1.2.2.2.1, h2.2.2.2.2.trans h1.2.2.2.2⟩

theorem processToolCallDeltasOpt_state (ctx : ModelCtx) (s : StreamState)
    (o : Option (List ToolCallDelta)) :
    (processToolCallDeltasOpt ctx s o).state.textStarted = s.textStarted ∧
      (processToolCallDeltasOpt ctx s o).state.reasoningStarted =
        s.reasoningStarted ∧
      (processToolCallDeltasOpt ctx s o).state.accumulatedReasoningDetails =
        s.accumulatedReasoningDetails ∧
      (processToolCallDeltasOpt ctx s o).state.textId = s.textId ∧
      (processToolCallDeltasOpt ctx s o).state.reasoningId =
        s.reasoningId := by
  cases o with
  | none => exact ⟨rfl, rfl, rfl, rfl, rfl⟩
  | some tcs => exact processToolCallDeltas_state ctx tcs s

theorem processOneToolCallDelta_attachInv (ctx : ModelCtx) (s : StreamState)
    (tcd : ToolCallDelta) :
    attachInv s.reasoningDetailsAttachedToToolCall
      (toolCallMds (processOneToolCallDelta ctx s tcd).events)
      (processOneToolCallDelta ctx s
        tcd).state.reasoningDetailsAttachedToToolCall := by
  rcases harr : arrGet s.toolCalls tcd.index with _ | tc <;>
    (unfold processOneToolCallDelta
     dsimp only
     rw [harr]
     repeat' split) <;>
    first
      | exact attachInv_refl _
      | (rename_i hcond
         rcases hatt : s.reasoningDetailsAttachedToToolCall with _ | _ <;>
           simp_all [attachInv, toolCallMds, toolCallMd])

theorem processToolCallDeltas_attachInv (ctx : ModelCtx)
    (tcs : List ToolCallDelta) :
    ∀ s : StreamState,
      attachInv s.reasoningDetailsAttachedToToolCall
        (toolCallMds (processToolCallDeltas ctx s tcs).events)
        (processToolCallDeltas ctx s
          tcs).state.reasoningDetailsAttachedToToolCall := by
  induction tcs with
  | nil => intro s; exact attachInv_refl _
  | cons tcd rest ih =>
    intro s
    rw [processToolCallDeltas]
    cases herr : (processOneToolCallDelta ctx s tcd).err with
    | some ex => exact processOneToolCallDelta_attachInv ctx s tcd
    | none =>
      dsimp only
      rw [toolCallMds_append]
      exact attachInv_comp (processOneToolCallDelta_attachInv ctx s tcd)
        (ih _)

theorem processToolCallDeltasOpt_attachInv (ctx : ModelCtx)
    (s : StreamState) (o : Option (List ToolCallDelta)) :
    attachInv s.reasoningDetailsAttachedToToolCall
      (toolCallMds (processToolCallDeltasOpt ctx s o).events)
      (processToolCallDeltasOpt ctx s
        o).state.reasoningDetailsAttachedToToolCall := by
  cases o with
  | none => exact attachInv_refl _
  | some tcs => exact processToolCallDeltas_attachInv ctx tcs s

theorem handleAnnotsOpt_no_tc (s : StreamState)
    (o : Option (List StreamAnnot)) :
    ∀ e ∈ (handleAnnotsOpt s o).2, toolCallMd e = none := by
  cases o with
  | none => intro e he; simp [handleAnnotsOpt] at he
  | some anns =>
    intro e he
    exact (handleAnnots_events_shape anns s e he).2.2.2

theorem matchErrImages_no_tc (o : Option StreamError)
    (i : Option (List String)) :
    ∀ e ∈ (match o with
      | none => imagesEvents i
      | some _ => ([] : List StreamEvent)),
      toolCallMd e = none := by
  cases o with
  | none =>
    cases i with
    | none => intro e he; simp [imagesEvents] at he
    | some imgs =>
      intro e he
      simp only [imagesEvents, List.mem_map] at he
      obtain ⟨url, _, rfl⟩ := he
      rfl
  | some ex => intro e he; simp at he

theorem processDelta_attachInv (ctx : ModelCtx) (s : StreamState)
    (d : Delta) :
    attachInv s.reasoningDetailsAttachedToToolCall
      (toolCallMds (processDelta ctx s d).events)
      (processDelta ctx s d).state.reasoningDetailsAttachedToToolCall := by
  unfold processDelta
  dsimp only
  rw [toolCallMds_append, toolCallMds_append, toolCallMds_append,
    toolCallMds_append]
  rw [toolCallMds_nil_of _
    (fun e he => rsd_no_tc e (handleReasoning_events_shape s d e he))]
  rw [toolCallMds_nil_of _ (handleContent_no_tc _ _)]
  rw [toolCallMds_nil_of _ (handleAnnotsOpt_no_tc _ _)]
  rw [toolCallMds_nil_of _ (matchErrImages_no_tc _ _)]
  simp only [List.nil_append, List.append_nil]
  have hatt : (handleAnnotsOpt
      (handleContent (handleReasoning s d).1 d.content).1
      d.annotations).1.reasoningDetailsAttachedToToolCall =
      s.reasoningDetailsAttachedToToolCall :=
    ((handleAnnotsOpt_state _ _).1).trans
      (((handleContent_state _ _).1).trans ((handleReasoning_state s d).1))
  have h := processToolCallDeltasOpt_attachInv ctx
    (handleAnnotsOpt (handleContent (handleReasoning s d).1 d.content).1
      d.annotations).1 d.tool_calls
  rw [hatt] at h
  exact h


theorem chunkPreState_fields (s : StreamState) (c : ChunkData) :
    (chunkPreState s c).reasoningDetailsAttachedToToolCall =
        s.reasoningDetailsAttachedToToolCall ∧
      (chunkPreState s c).textStarted = s.textStarted ∧
      (chunkPreState s c).reasoningStarted = s.reasoningStarted ∧
      (chunkPreState s c).accumulatedReasoningDetails =
        s.accumulatedReasoningDetails ∧
      (chunkPreState s c).reasoningId = s.reasoningId ∧
      (chunkPreState s c).toolCalls = s.toolCalls := by
  unfold chunkPreState
  dsimp only
  repeat' split
  all_goals refine ⟨?_, ?_, ?_, ?_, ?_, ?_⟩ <;> rfl

theorem processChunk_attachInv (ctx : ModelCtx) (s : StreamState)
    (pr : ParsedChunk) :
    attachInv s.reasoningDetailsAttachedToToolCall
      (toolCallMds (processChunk ctx s pr).events)
      (processChunk ctx s
        pr).state.reasoningDetailsAttachedToToolCall := by
  cases pr with
  | failure =>
    rw [toolCallMds_nil_of (processChunk ctx s ParsedChunk.failure).events]
    · exact attachInv_refl _
    · intro e he
      rw [show (processChunk ctx s ParsedChunk.failure).events =
          (if ctx.includeRawChunks = true then [StreamEvent.raw] else []) ++
            [StreamEvent.errorEv] from rfl] at he
      rcases List.mem_append.mp he with h1 | h2
      · rw [mem_ite_singleton _ _ h1]
        rfl
      · simp only [List.mem_singleton] at h2
        subst h2
        rfl
  | success v =>
    cases v with
    | errorPayload =>
      rw [toolCallMds_nil_of (processChunk ctx s
          (ParsedChunk.success ChunkValue.errorPayload)).events]
      · exact attachInv_refl _
      · intro e he
        rw [show (processChunk ctx s
              (ParsedChunk.success ChunkValue.errorPayload)).events =
            (if ctx.includeRawChunks = true then [StreamEvent.raw] else [])
              ++ [StreamEvent.errorEv] from rfl] at he
        rcases List.mem_append.mp he with h1 | h2
        · rw [mem_ite_singleton _ _ h1]
          rfl
        · simp only [List.mem_singleton] at h2
          subst h2
          rfl
    | data c =>
      unfold processChunk
      dsimp only
      cases hd : (c.choices.head?).bind (fun ch => ch.delta) with
      | none =>
        dsimp only
        rw [toolCallMds_nil_of _
          (fun e he => (chunkPreEvents_props ctx c e he).2.2)]
        rw [(chunkPreState_fields s c).1]
        exact attachInv_refl _
      | some d =>
        dsimp only
        rw [toolCallMds_append]
        rw [toolCallMds_nil_of _
          (fun e he => (chunkPreEvents_props ctx c e he).2.2)]
        rw [List.nil_append]
        have h := processDelta_attachInv ctx (chunkPreState s c) d
        rw [(chunkPreState_fields s c).1] at h
        exact h

theorem runChunksFrom_attachInv (ctx : ModelCtx)
    (chunks : List ParsedChunk) :
    ∀ s : StreamState,
      attachInv s.reasoningDetailsAttachedToToolCall
        (toolCallMds (runChunksFrom ctx s chunks).events)
        (runChunksFrom ctx s
          chunks).state.reasoningDetailsAttachedToToolCall := by
  induction chunks with
  | nil => intro s; exact attachInv_refl _
  | cons c rest ih =>
    intro s
    rw [runChunksFrom]
    cases herr : (processChunk ctx s c).err with
    | some ex => exact processChunk_attachInv ctx s c
    | none =>
      dsimp only
      rw [toolCallMds_append]
      exact attachInv_comp (processChunk_attachInv ctx s c) (ih _)

theorem applyFinishOverride_attached (s : StreamState) :
    (applyFinishOverride s).reasoningDetailsAttachedToToolCall =
      s.reasoningDetailsAttachedToToolCall := by
  simp only [applyFinishOverride]
  split <;> rfl

theorem forceEmitLoop_attachInv (ctx : ModelCtx)
    (details : List ReasoningDetail) (l : List (Option ToolCallAcc)) :
    ∀ attached : Bool,
      attachInv attached
        (toolCallMds (forceEmitLoop ctx details attached l).2.2)
        (forceEmitLoop ctx details attached l).2.1 := by
  induction l with
  | nil => intro attached; exact attachInv_refl _
  | cons o rest ih =>
    intro attached
    cases o with
    | none =>
      rw [forceEmitLoop]
      exact ih attached
    | some acc =>
      rw [forceEmitLoop]
      by_cases hs : acc.sent
      · rw [if_pos hs]
        exact ih attached
      · rw [if_neg hs]
        dsimp only
        have hrest := ih true
        cases attached with
        | true =>
          refine ⟨hrest.1, ?_⟩
          intro m hm
          rcases List.mem_cons.mp hm with hh | hh
          · simpa using hh
          · exact hrest.2 m hh
        | false =>
          obtain ⟨hfin, hall⟩ := hrest
          exact ⟨hfin, rfl, hall⟩

theorem toolCallMds_ite_reasoningEnd {P : Prop} [Decidable P] (i : String)
    (md : Option (List ReasoningDetail)) :
    toolCallMds (if P then [StreamEvent.reasoningEnd i md] else []) = [] :=
  by
  split <;> simp [toolCallMds, toolCallMd]

theorem toolCallMds_ite_textEnd {P : Prop} [Decidable P] (i : String) :
    toolCallMds (if P then [StreamEvent.textEnd i] else []) = [] := by
  split <;> simp [toolCallMds, toolCallMd]

theorem toolCallMds_singleton_finish (fr : FinishReason) (u : Usage) :
    toolCallMds [StreamEvent.finishEv fr u] = [] := by
  simp [toolCallMds, toolCallMd]

theorem flushStep_attachInv (ctx : ModelCtx) (s : StreamState) :
    ∃ a2, attachInv s.reasoningDetailsAttachedToToolCall
      (toolCallMds (flushStep ctx s)) a2 := by
  unfold flushStep
  dsimp only
  by_cases hcond : (applyFinishOverride s).finishReason.unified =
      UnifiedFinishReason.toolCalls
  · rw [if_pos hcond]
    dsimp only
    rw [toolCallMds_append, toolCallMds_append, toolCallMds_append,
      toolCallMds_ite_reasoningEnd _ _, toolCallMds_ite_textEnd _,
      toolCallMds_singleton_finish _ _]
    simp only [List.append_nil]
    refine ⟨(forceEmitLoop ctx
      (applyFinishOverride s).accumulatedReasoningDetails
      (applyFinishOverride s).reasoningDetailsAttachedToToolCall
      (applyFinishOverride s).toolCalls).2.1, ?_⟩
    rw [show s.reasoningDetailsAttachedToToolCall =
        (applyFinishOverride s).reasoningDetailsAttachedToToolCall from
      (applyFinishOverride_attached s).symm]
    exact forceEmitLoop_attachInv ctx _ _ _
  · rw [if_neg hcond]
    dsimp only
    refine ⟨s.reasoningDetailsAttachedToToolCall, ?_⟩
    have hnil : toolCallMds (([] : List StreamEvent) ++
        (if (applyFinishOverride s).reasoningStarted = true then
          [StreamEvent.reasoningEnd
            (jsOrStr (applyFinishOverride s).reasoningId generateId)
            (if (applyFinishOverride
                s).accumulatedReasoningDetails.length > 0 then
              some (applyFinishOverride s).accumulatedReasoningDetails
            else none)]
        else []) ++
        (if (applyFinishOverride s).textStarted = true then
          [StreamEvent.textEnd
            (jsOrStr (applyFinishOverride s).textId generateId)]
        else []) ++
        [StreamEvent.finishEv (applyFinishOverride s).finishReason
          { (applyFinishOverride s).usage with
            raw := (applyFinishOverride s).rawUsage }]) = [] := by
      rw [toolCallMds_append, toolCallMds_append, toolCallMds_append,
        toolCallMds_ite_reasoningEnd _ _, toolCallMds_ite_textEnd _,
        toolCallMds_singleton_finish _ _]
      rfl
    rw [hnil]
    exact attachInv_refl _

theorem attachInv_false_shape
    {mds : List (Option (List ReasoningDetail))} {a : Bool}
    (h : attachInv false mds a) :
    mds = [] ∨ ∃ m rest, mds = some m :: rest ∧ ∀ x ∈ rest, x = none := by
  cases mds with
  | nil => exact Or.inl rfl
  | cons m rest =>
    obtain ⟨_, hsome, hall⟩ := h
    obtain ⟨y, hy⟩ := Option.isSome_iff_exists.mp hsome
    exact Or.inr ⟨y, rest, by rw [hy], hall⟩

theorem nsToolCallBlocks_mds_attached (details : List ReasoningDetail)
    (tcs : List NSToolCall) :
    ∀ x ∈ nsToolCallMds (nsToolCallBlocks details true tcs), x = none := by
  induction tcs with
  | nil => intro x hx; simp [nsToolCallBlocks, nsToolCallMds] at hx
  | cons t rest ih =>
    intro x hx
    rw [nsToolCallBlocks] at hx
    rcases List.mem_cons.mp hx with hh | hh
    · simpa using hh
    · exact ih x hh

theorem nsReasoningContent_blocks (msg : NSMessage) :
    ∀ b ∈ nsReasoningContent msg,
      ∃ t md, b = ContentBlock.reasoning t md := by
  intro b hb
  unfold nsReasoningContent at hb
  dsimp only at hb
  by_cases hlen : (msg.reasoning_details.getD []).length > 0
  · rw [if_pos hlen] at hb
    simp only [List.mem_filterMap] at hb
    obtain ⟨d, _, hd⟩ := hb
    cases d with
    | text t sg f =>
      simp only [nsDetailBlock] at hd
      split at hd
      · exact ⟨_, _, (Option.some.inj hd).symm⟩
      · simp at hd
    | summary sum =>
      simp only [nsDetailBlock] at hd
      split at hd
      · exact ⟨_, _, (Option.some.inj hd).symm⟩
      · simp at hd
    | encrypted dat =>
      simp only [nsDetailBlock] at hd
      split at hd
      · exact ⟨_, _, (Option.some.inj hd).symm⟩
      · simp at hd
  · rw [if_neg hlen] at hb
    cases hr : msg.reasoning with
    | none =>
      rw [hr] at hb
      simp at hb
    | some r =>
      rw [hr] at hb
      dsimp only at hb
      by_cases hre : r = ""
      · rw [if_pos hre] at hb
        simp at hb
      · rw [if_neg hre] at hb
        simp only [List.mem_singleton] at hb
        exact ⟨_, _, hb⟩

theorem nsToolCallMds_append (l1 l2 : List ContentBlock) :
    nsToolCallMds (l1 ++ l2) = nsToolCallMds l1 ++ nsToolCallMds l2 := by
  simp [nsToolCallMds, List.filterMap_append]

theorem nsToolCallMds_reasoningContent (msg : NSMessage) :
    nsToolCallMds (nsReasoningContent msg) = [] := by
  simp only [nsToolCallMds, List.filterMap_eq_nil_iff]
  intro b hb
  obtain ⟨t, md, rfl⟩ := nsReasoningContent_blocks msg b hb
  rfl

theorem nsToolCallMds_textPart (o : Option String) :
    nsToolCallMds (match o with
      | some c => if c = "" then [] else [ContentBlock.text c]
      | none => ([] : List ContentBlock)) = [] := by
  cases o with
  | none => rfl
  | some c =>
    by_cases hc : c = ""
    · simp [hc, nsToolCallMds]
    · simp [hc, nsToolCallMds]

theorem nsToolCallMds_imagePart (o : Option (List String)) :
    nsToolCallMds (match o with
      | some imgs => imgs.map (fun url => ContentBlock.file url)
      | none => ([] : List ContentBlock)) = [] := by
  cases o with
  | none => rfl
  | some imgs =>
    simp only [nsToolCallMds, List.filterMap_eq_nil_iff]
    intro b hb
    simp only [List.mem_map] at hb
    obtain ⟨url, _, rfl⟩ := hb
    rfl

theorem nsToolCallMds_sourcePart (o : Option (List NSAnnot)) :
    nsToolCallMds (match o with
      | some anns =>
        anns.filterMap (fun a =>
          match a with
          | NSAnnot.urlCitation url title =>
            some (ContentBlock.source url (title.getD ""))
          | NSAnnot.fileAnn => none)
      | none => ([] : List ContentBlock)) = [] := by
  cases o with
  | none => rfl
  | some anns =>
    simp only [nsToolCallMds, List.filterMap_eq_nil_iff]
    intro b hb
    simp only [List.mem_filterMap] at hb
    obtain ⟨a, _, ha⟩ := hb
    cases a with
    | urlCitation url title =>
      simp only [Option.some.injEq] at ha
      rw [← ha]
    | fileAnn => simp at ha

/-- **C6.** For every stream and every non-streaming response, only the
first tool-call event or block carries reasoning-details provider
metadata: the list of metadata fields of the emitted tool calls is either
empty or consists of a present first entry followed only by absent ones —
across in-stream emissions and the forced flush (the attach flag is shared
and monotonic), and across the `doGenerate` tool-call loop. -/
theorem first_tool_call_only_reasoning_metadata :
    (∀ (ctx : ModelCtx) (chunks : List ParsedChunk),
      toolCallMds (runStream ctx chunks) = [] ∨
      ∃ m rest, toolCallMds (runStream ctx chunks) = some m :: rest ∧
        ∀ x ∈ rest, x = none) ∧
    (∀ msg : NSMessage,
      nsToolCallMds (nsContent msg) = [] ∨
      ∃ m rest, nsToolCallMds (nsContent msg) = some m :: rest ∧
        ∀ x ∈ rest, x = none) := by
  constructor
  · intro ctx chunks
    unfold runStream
    dsimp only
    cases herr : (runChunksFrom ctx initState chunks).err with
    | some ex =>
      exact attachInv_false_shape (runChunksFrom_attachInv ctx chunks
        initState)
    | none =>
      rw [toolCallMds_append]
      obtain ⟨a2, h2⟩ := flushStep_attachInv ctx
        (runChunksFrom ctx initState chunks).state
      exact attachInv_false_shape
        (attachInv_comp (runChunksFrom_attachInv ctx chunks initState) h2)
  · intro msg
    unfold nsContent
    dsimp only
    rw [nsToolCallMds_append, nsToolCallMds_append, nsToolCallMds_append,
      nsToolCallMds_append, nsToolCallMds_reasoningContent,
      nsToolCallMds_textPart, nsToolCallMds_imagePart,
      nsToolCallMds_sourcePart]
    simp only [List.nil_append, List.append_nil]
    cases htc : msg.tool_calls with
    | none => exact Or.inl rfl
    | some tcs =>
      cases tcs with
      | nil => exact Or.inl rfl
      | cons t rest =>
        refine Or.inr ⟨msg.reasoning_details.getD [],
          nsToolCallMds (nsToolCallBlocks (msg.reasoning_details.getD [])
            true rest), rfl, ?_⟩
        exact nsToolCallBlocks_mds_attached _ rest

/-! ## Claim C2: reasoning-end is emitted right before the first
text-start -/

theorem rsd_not_re (e : StreamEvent)
    (h : isReasoningStartOrDelta e = true) : isReasoningEnd e = false := by
  cases e <;> simp_all [isReasoningStartOrDelta, isReasoningEnd]

theorem chunkPreEvents_no_re (ctx : ModelCtx) (c : ChunkData) :
    ∀ e ∈ chunkPreEvents ctx c, isReasoningEnd e = false := by
  intro e he
  unfold chunkPreEvents at he
  rcases List.mem_append.mp he with hh | h3
  · rcases List.mem_append.mp hh with h1 | h2
    · rw [mem_ite_singleton _ _ h1]
      rfl
    · rw [mem_ite_singleton _ _ h2]
      rfl
  · rw [mem_ite_singleton _ _ h3]
    rfl

theorem matchErrImages_no_ts_re (o : Option StreamError)
    (i : Option (List String)) :
    ∀ e ∈ (match o with
      | none => imagesEvents i
      | some _ => ([] : List StreamEvent)),
      isTextStart e = false ∧ isReasoningEnd e = false := by
  cases o with
  | none =>
    cases i with
    | none => intro e he; simp [imagesEvents] at he
    | some imgs =>
      intro e he
      simp only [imagesEvents, List.mem_map] at he
      obtain ⟨url, _, rfl⟩ := he
      exact ⟨rfl, rfl⟩
  | some ex => intro e he; simp at he

theorem handleContent_ts_true (s : StreamState) (c : Option String)
    (hc : jsTruthy c = true) : (handleContent s c).1.textStarted = true := by
  by_cases ht : s.textStarted
  · rw [handleContent_continue s c hc ht]
    exact ht
  · by_cases hr : s.reasoningStarted
    · rw [handleContent_transition s c hc hr (by simpa using ht)]
    · rw [handleContent_start s c hc (by simpa using hr)
        (by simpa using ht)]

theorem handleContent_ts_mono (s : StreamState) (c : Option String)
    (h : s.textStarted = true) :
    (handleContent s c).1.textStarted = true ∧
      ∀ e ∈ (handleContent s c).2, isTextStart e = false := by
  by_cases hc : jsTruthy c
  · rw [handleContent_continue s c hc h]
    refine ⟨h, ?_⟩
    intro e he
    simp only [List.mem_singleton] at he
    subst he
    rfl
  · rw [handleContent_false s c (by simpa using hc)]
    exact ⟨h, by intro e he; simp at he⟩

theorem handleContent_rs_false (s : StreamState) (c : Option String)
    (h : s.reasoningStarted = false) :
    (handleContent s c).1.reasoningStarted = false ∧
      ∀ e ∈ (handleContent s c).2, isReasoningEnd e = false := by
  by_cases hc : jsTruthy c
  · by_cases ht : s.textStarted
    · rw [handleContent_continue s c hc ht]
      refine ⟨h, ?_⟩
      intro e he
      simp only [List.mem_singleton] at he
      subst he
      rfl
    · rw [handleContent_start s c hc h (by simpa using ht)]
      refine ⟨h, ?_⟩
      intro e he
      simp only [List.mem_cons, List.mem_singleton, List.not_mem_nil,
        or_false] at he
      rcases he with he | he <;> subst he <;> rfl
  · rw [handleContent_false s c (by simpa using hc)]
    exact ⟨h, by intro e he; simp at he⟩

theorem applyFinishOverride_rs (s : StreamState) :
    (applyFinishOverride s).reasoningStarted = s.reasoningStarted := by
  simp only [applyFinishOverride]
  split <;> rfl

theorem flushStep_no_re_of_rs_false (ctx : ModelCtx) (s : StreamState)
    (h : s.reasoningStarted = false) :
    ∀ e ∈ flushStep ctx s, isReasoningEnd e = false := by
  intro e he
  unfold flushStep at he
  dsimp only at he
  by_cases hcond : (applyFinishOverride s).finishReason.unified =
      UnifiedFinishReason.toolCalls
  · rw [if_pos hcond] at he
    dsimp only at he
    rcases List.mem_append.mp he with hh | hfin
    · rcases List.mem_append.mp hh with hh2 | h3
      · rcases List.mem_append.mp hh2 with h1 | h2
        · exact (isToolish_props e
            (List.all_eq_true.mp
              (forceEmitLoop_events_toolish ctx _ _ _) e h1)).2.2
        · rw [(applyFinishOverride_rs s).trans h] at h2
          simp at h2
      · rw [mem_ite_singleton _ _ h3]
        rfl
    · simp only [List.mem_singleton] at hfin
      subst hfin
      rfl
  · rw [if_neg hcond] at he
    dsimp only at he
    rcases List.mem_append.mp he with hh | hfin
    · rcases List.mem_append.mp hh with hh2 | h3
      · rcases List.mem_append.mp hh2 with h1 | h2
        · simp at h1
        · rw [show (applyFinishOverride s).reasoningStarted = false from
            (applyFinishOverride_rs s).trans h] at h2
          simp at h2
      · rw [mem_ite_singleton _ _ h3]
        rfl
    · simp only [List.mem_singleton] at hfin
      subst hfin
      rfl

theorem processDelta_ts_mono (ctx : ModelCtx) (s : StreamState) (d : Delta)
    (h : s.textStarted = true) :
    (processDelta ctx s d).state.textStarted = true ∧
      ∀ e ∈ (processDelta ctx s d).events, isTextStart e = false := by
  have hr1 : (handleReasoning s d).1.textStarted = true :=
    ((handleReasoning_state s d).2).trans h
  have hc2 := handleContent_ts_mono (handleReasoning s d).1 d.content hr1
  constructor
  · exact ((processToolCallDeltasOpt_state ctx _ d.tool_calls).1).trans
      (((handleAnnotsOpt_state _ d.annotations).2.1).trans hc2.1)
  · intro e he
    unfold processDelta at he
    dsimp only at he
    rcases List.mem_append.mp he with hh | h5
    · rcases List.mem_append.mp hh with hh2 | h4
      · rcases List.mem_append.mp hh2 with hh3 | h3
        · rcases List.mem_append.mp hh3 with h1 | h2
          · exact rsd_not_ts e (handleReasoning_events_shape s d e h1)
          · exact hc2.2 e h2
        · cases ho : d.annotations with
          | none => rw [ho] at h3; simp [handleAnnotsOpt] at h3
          | some anns =>
            rw [ho] at h3
            exact (handleAnnots_events_shape anns _ e h3).2.1
      · exact (isToolish_props e
          (List.all_eq_true.mp
            (processToolCallDeltasOpt_events_toolish ctx _ _) e h4)).2.1
    · exact (matchErrImages_no_ts_re _ _ e h5).1

theorem processDelta_ts_back (ctx : ModelCtx) (s : StreamState) (d : Delta)
    (h : (processDelta ctx s d).state.textStarted = false) :
    s.textStarted = false ∧
      ∀ e ∈ (processDelta ctx s d).events,
        isTextStart e = false ∧ isReasoningEnd e = false := by
  have hstate : (processDelta ctx s d).state.textStarted =
      (handleContent (handleReasoning s d).1 d.content).1.textStarted :=
    ((processToolCallDeltasOpt_state ctx _ d.tool_calls).1).trans
      ((handleAnnotsOpt_state _ d.annotations).2.1)
  rw [hstate] at h
  by_cases hc : jsTruthy d.content
  · rw [handleContent_ts_true _ d.content hc] at h
    exact absurd h (by simp)
  · have hcf := handleContent_false (handleReasoning s d).1 d.content
      (by simpa using hc)
    rw [hcf] at h
    have hs : s.textStarted = false :=
      ((handleReasoning_state s d).2).symm.trans h
    refine ⟨hs, ?_⟩
    intro e he
    unfold processDelta at he
    dsimp only at he
    rw [hcf] at he
    dsimp only at he
    rcases List.mem_append.mp he with hh | h5
    · rcases List.mem_append.mp hh with hh2 | h4
      · rcases List.mem_append.mp hh2 with hh3 | h3
        · rcases List.mem_append.mp hh3 with h1 | h2
          · have := handleReasoning_events_shape s d e h1
            exact ⟨rsd_not_ts e this, rsd_not_re e this⟩
          · simp at h2
        · cases ho : d.annotations with
          | none => rw [ho] at h3; simp [handleAnnotsOpt] at h3
          | some anns =>
            rw [ho] at h3
            have := handleAnnots_events_shape anns _ e h3
            exact ⟨this.2.1, this.2.2.1⟩
      · have := isToolish_props e
          (List.all_eq_true.mp
            (processToolCallDeltasOpt_events_toolish ctx _ _) e h4)
        exact ⟨this.2.1, this.2.2⟩
    · exact matchErrImages_no_ts_re _ _ e h5

theorem processDelta_noReasoning_rs (ctx : ModelCtx) (s : StreamState)
    (d : Delta) (hd : deltaNoReasoning d = true)
    (h : s.reasoningStarted = false) :
    (processDelta ctx s d).state.reasoningStarted = false ∧
      ∀ e ∈ (processDelta ctx s d).events, isReasoningEnd e = false := by
  have hr := handleReasoning_noReasoning s d hd
  have hc := handleContent_rs_false s d.content h
  constructor
  · rw [show (processDelta ctx s d).state.reasoningStarted =
        (handleContent (handleReasoning s d).1 d.content).1.reasoningStarted
      from ((processToolCallDeltasOpt_state ctx _ d.tool_calls).2.1).trans
        ((handleAnnotsOpt_state _ d.annotations).2.2.1)]
    rw [hr]
    exact hc.1
  · intro e he
    unfold processDelta at he
    dsimp only at he
    rw [hr] at he
    dsimp only at he
    rw [List.nil_append] at he
    rcases List.mem_append.mp he with hh | h5
    · rcases List.mem_append.mp hh with hh2 | h4
      · rcases List.mem_append.mp hh2 with h2 | h3
        · exact hc.2 e h2
        · cases ho : d.annotations with
          | none => rw [ho] at h3; simp [handleAnnotsOpt] at h3
          | some anns =>
            rw [ho] at h3
            exact (handleAnnots_events_shape anns _ e h3).2.2.1
      · exact (isToolish_props e
          (List.all_eq_true.mp
            (processToolCallDeltasOpt_events_toolish ctx _ _) e h4)).2.2
    · exact (matchErrImages_no_ts_re _ _ e h5).2

theorem processChunk_ts_mono (ctx : ModelCtx) (s : StreamState)
    (pr : ParsedChunk) (h : s.textStarted = true) :
    (processChunk ctx s pr).state.textStarted = true ∧
      ∀ e ∈ (processChunk ctx s pr).events, isTextStart e = false := by
  cases pr with
  | failure =>
    refine ⟨h, ?_⟩
    intro e he
    rw [show (processChunk ctx s ParsedChunk.failure).events =
        (if ctx.includeRawChunks = true then [StreamEvent.raw] else []) ++
          [StreamEvent.errorEv] from rfl] at he
    rcases List.mem_append.mp he with h1 | h2
    · rw [mem_ite_singleton _ _ h1]
      rfl
    · simp only [List.mem_singleton] at h2
      subst h2
      rfl
  | success v =>
    cases v with
    | errorPayload =>
      refine ⟨h, ?_⟩
      intro e he
      rw [show (processChunk ctx s
            (ParsedChunk.success ChunkValue.errorPayload)).events =
          (if ctx.includeRawChunks = true then [StreamEvent.raw] else []) ++
            [StreamEvent.errorEv] from rfl] at he
      rcases List.mem_append.mp he with h1 | h2
      · rw [mem_ite_singleton _ _ h1]
        rfl
      · simp only [List.mem_singleton] at h2
        subst h2
        rfl
    | data c =>
      unfold processChunk
      dsimp only
      cases hd : (c.choices.head?).bind (fun ch => ch.delta) with
      | none =>
        dsimp only
        refine ⟨((chunkPreState_fields s c).2.1).trans h, ?_⟩
        intro e he
        exact (chunkPreEvents_props ctx c e he).1
      | some d =>
        dsimp only
        have hpre : (chunkPreState s c).textStarted = true :=
          ((chunkPreState_fields s c).2.1).trans h
        have hm := processDelta_ts_mono ctx (chunkPreState s c) d hpre
        refine ⟨hm.1, ?_⟩
        intro e he
        rcases List.mem_append.mp he with h1 | h2
        · exact (chunkPreEvents_props ctx c e h1).1
        · exact hm.2 e h2

theorem run_ts_mono (ctx : ModelCtx) (chunks : List ParsedChunk) :
    ∀ s : StreamState, s.textStarted = true →
      (runChunksFrom ctx s chunks).state.textStarted = true ∧
        ∀ e ∈ (runChunksFrom ctx s chunks).events, isTextStart e = false :=
  by
  induction chunks with
  | nil =>
    intro s h
    exact ⟨h, by intro e he; simp [runChunksFrom] at he⟩
  | cons c rest ih =>
    intro s h
    rw [runChunksFrom]
    have hc := processChunk_ts_mono ctx s c h
    cases herr : (processChunk ctx s c).err with
    | some ex => exact hc
    | none =>
      dsimp only
      have hr := ih (processChunk ctx s c).state hc.1
      refine ⟨hr.1, ?_⟩
      intro e he
      rcases List.mem_append.mp he with h1 | h2
      · exact hc.2 e h1
      · exact hr.2 e h2

theorem processChunk_ts_back (ctx : ModelCtx) (s : StreamState)
    (pr : ParsedChunk)
    (h : (processChunk ctx s pr).state.textStarted = false) :
    s.textStarted = false ∧
      ∀ e ∈ (processChunk ctx s pr).events,
        isTextStart e = false ∧ isReasoningEnd e = false := by
  cases pr with
  | failure =>
    refine ⟨h, ?_⟩
    intro e he
    rw [show (processChunk ctx s ParsedChunk.failure).events =
        (if ctx.includeRawChunks = true then [StreamEvent.raw] else []) ++
          [StreamEvent.errorEv] from rfl] at he
    rcases List.mem_append.mp he with h1 | h2
    · rw [mem_ite_singleton _ _ h1]
      exact ⟨rfl, rfl⟩
    · simp only [List.mem_singleton] at h2
      subst h2
      exact ⟨rfl, rfl⟩
  | success v =>
    cases v with
    | errorPayload =>
      refine ⟨h, ?_⟩
      intro e he
      rw [show (processChunk ctx s
            (ParsedChunk.success ChunkValue.errorPayload)).events =
          (if ctx.includeRawChunks = true then [StreamEvent.raw] else []) ++
            [StreamEvent.errorEv] from rfl] at he
      rcases List.mem_append.mp he with h1 | h2
      · rw [mem_ite_singleton _ _ h1]
        exact ⟨rfl, rfl⟩
      · simp only [List.mem_singleton] at h2
        subst h2
        exact ⟨rfl, rfl⟩
    | data c =>
      revert h
      unfold processChunk
      dsimp only
      cases hd : (c.choices.head?).bind (fun ch => ch.delta) with
      | none =>
        dsimp only
        intro h
        refine ⟨((chunkPreState_fields s c).2.1).symm.trans h, ?_⟩
        intro e he
        exact ⟨(chunkPreEvents_props ctx c e he).1,
          chunkPreEvents_no_re ctx c e he⟩
      | some d =>
        dsimp only
        intro h
        have hb := processDelta_ts_back ctx (chunkPreState s c) d h
        refine ⟨((chunkPreState_fields s c).2.1).symm.trans hb.1, ?_⟩
        intro e he
        rcases List.mem_append.mp he with h1 | h2
        · exact ⟨(chunkPreEvents_props ctx c e h1).1,
            chunkPreEvents_no_re ctx c e h1⟩
        · exact hb.2 e h2

theorem run_ts_back (ctx : ModelCtx) (chunks : List ParsedChunk) :
    ∀ s : StreamState,
      (runChunksFrom ctx s chunks).state.textStarted = false →
      s.textStarted = false ∧
        ∀ e ∈ (runChunksFrom ctx s chunks).events,
          isTextStart e = false ∧ isReasoningEnd e = false := by
  induction chunks with
  | nil =>
    intro s h
    exact ⟨h, by intro e he; simp [runChunksFrom] at he⟩
  | cons c rest ih =>
    intro s
    rw [runChunksFrom]
    cases herr : (processChunk ctx s c).err with
    | some ex =>
      intro h
      exact processChunk_ts_back ctx s c h
    | none =>
      dsimp only
      intro h
      have hr := ih (processChunk ctx s c).state h
      have hc := processChunk_ts_back ctx s c hr.1
      refine ⟨hc.1, ?_⟩
      intro e he
      rcases List.mem_append.mp he with h1 | h2
      · exact hc.2 e h1
      · exact hr.2 e h2

theorem processChunk_noReasoning_rs (ctx : ModelCtx) (s : StreamState)
    (pr : ParsedChunk) (hc : chunkNoReasoning pr = true)
    (h : s.reasoningStarted = false) :
    (processChunk ctx s pr).state.reasoningStarted = false ∧
      ∀ e ∈ (processChunk ctx s pr).events, isReasoningEnd e = false := by
  cases pr with
  | failure =>
    refine ⟨h, ?_⟩
    intro e he
    rw [show (processChunk ctx s ParsedChunk.failure).events =
        (if ctx.includeRawChunks = true then [StreamEvent.raw] else []) ++
          [StreamEvent.errorEv] from rfl] at he
    rcases List.mem_append.mp he with h1 | h2
    · rw [mem_ite_singleton _ _ h1]
      rfl
    · simp only [List.mem_singleton] at h2
      subst h2
      rfl
  | success v =>
    cases v with
    | errorPayload =>
      refine ⟨h, ?_⟩
      intro e he
      rw [show (processChunk ctx s
            (ParsedChunk.success ChunkValue.errorPayload)).events =
          (if ctx.includeRawChunks = true then [StreamEvent.raw] else []) ++
            [StreamEvent.errorEv] from rfl] at he
      rcases List.mem_append.mp he with h1 | h2
      · rw [mem_ite_singleton _ _ h1]
        rfl
      · simp only [List.mem_singleton] at h2
        subst h2
        rfl
    | data c =>
      unfold processChunk
      dsimp only
      cases hd : (c.choices.head?).bind (fun ch => ch.delta) with
      | none =>
        dsimp only
        refine ⟨((chunkPreState_fields s c).2.2.1).trans h, ?_⟩
        intro e he
        exact chunkPreEvents_no_re ctx c e he
      | some d =>
        dsimp only
        have hdn := chunkNoReasoning_delta c d hc hd
        have hpre : (chunkPreState s c).reasoningStarted = false :=
          ((chunkPreState_fields s c).2.2.1).trans h
        have hm := processDelta_noReasoning_rs ctx (chunkPreState s c) d
          hdn hpre
        refine ⟨hm.1, ?_⟩
        intro e he
        rcases List.mem_append.mp he with h1 | h2
        · exact chunkPreEvents_no_re ctx c e h1
        · exact hm.2 e h2

theorem run_noReasoning_rs (ctx : ModelCtx) (chunks : List ParsedChunk)
    (hall : ∀ c ∈ chunks, chunkNoReasoning c = true) :
    ∀ s : StreamState, s.reasoningStarted = false →
      (runChunksFrom ctx s chunks).state.reasoningStarted = false ∧
        ∀ e ∈ (runChunksFrom ctx s chunks).events,
          isReasoningEnd e = false := by
  induction chunks with
  | nil =>
    intro s h
    exact ⟨h, by intro e he; simp [runChunksFrom] at he⟩
  | cons c rest ih =>
    intro s h
    rw [runChunksFrom]
    have hc := processChunk_noReasoning_rs ctx s c (hall c (by simp)) h
    cases herr : (processChunk ctx s c).err with
    | some ex => exact hc
    | none =>
      dsimp only
      have hr := ih (fun x hx => hall x (by simp [hx]))
        (processChunk ctx s c).state hc.1
      refine ⟨hr.1, ?_⟩
      intro e he
      rcases List.mem_append.mp he with h1 | h2
      · exact hc.2 e h1
      · exact hr.2 e h2

theorem processDelta_transition (ctx : ModelCtx) (s : StreamState)
    (d : Delta) (hdc : jsTruthy d.content = true)
    (hdn : deltaNoReasoning d = true) (hrs : s.reasoningStarted = true)
    (hts : s.textStarted = false) :
    ∃ tail,
      (processDelta ctx s d).events =
        StreamEvent.reasoningEnd (jsOrStr s.reasoningId generateId)
            (if s.accumulatedReasoningDetails.length > 0 then
              some s.accumulatedReasoningDetails
            else none) ::
          StreamEvent.textStart (jsOrStr s.osmResponseId generateId) ::
          StreamEvent.textDelta (jsOrStr s.osmResponseId generateId)
            (d.content.getD "") :: tail ∧
        (∀ e ∈ tail, isTextStart e = false ∧ isReasoningEnd e = false) ∧
        (processDelta ctx s d).state.textStarted = true ∧
        (processDelta ctx s d).state.reasoningStarted = false := by
  unfold processDelta
  dsimp only
  rw [handleReasoning_noReasoning s d hdn]
  dsimp only
  rw [List.nil_append]
  rw [handleContent_transition s d.content hdc hrs hts]
  dsimp only
  simp only [List.append_assoc, List.cons_append, List.nil_append]
  refine ⟨_, rfl, ?_, ?_, ?_⟩
  · intro e he
    rcases List.mem_append.mp he with h3 | hbc
    · cases ho : d.annotations with
      | none => rw [ho] at h3; simp [handleAnnotsOpt] at h3
      | some anns =>
        rw [ho] at h3
        have hsh := handleAnnots_events_shape anns _ e h3
        exact ⟨hsh.2.1, hsh.2.2.1⟩
    · rcases List.mem_append.mp hbc with h4 | h5
      · have hto := isToolish_props e
          (List.all_eq_true.mp
            (processToolCallDeltasOpt_events_toolish ctx _ _) e h4)
        exact ⟨hto.2.1, hto.2.2⟩
      · exact matchErrImages_no_ts_re _ _ e h5
  · exact ((processToolCallDeltasOpt_state ctx _ d.tool_calls).1).trans
      ((handleAnnotsOpt_state _ d.annotations).2.1)
  · exact ((processToolCallDeltasOpt_state ctx _ d.tool_calls).2.1).trans
      ((handleAnnotsOpt_state _ d.annotations).2.2.1)

theorem processChunk_data_some (ctx : ModelCtx) (s : StreamState)
    (cd : ChunkData) (d : Delta)
    (hd : (cd.choices.head?).bind (fun ch => ch.delta) = some d) :
    processChunk ctx s (ParsedChunk.success (ChunkValue.data cd)) =
      { state := (processDelta ctx (chunkPreState s cd) d).state
        events := chunkPreEvents ctx cd ++
          (processDelta ctx (chunkPreState s cd) d).events
        err := (processDelta ctx (chunkPreState s cd) d).err } := by
  unfold processChunk
  dsimp only
  rw [hd]

theorem chunkHasContent_form (pr : ParsedChunk)
    (h : chunkHasContent pr = true) :
    ∃ c, pr = ParsedChunk.success (ChunkValue.data c) := by
  cases pr with
  | failure => simp [chunkHasContent] at h
  | success v =>
    cases v with
    | errorPayload => simp [chunkHasContent] at h
    | data c => exact ⟨c, rfl⟩

theorem chunkHasContent_delta (c : ChunkData)
    (h : chunkHasContent (ParsedChunk.success (ChunkValue.data c)) = true) :
    ∃ d, (c.choices.head?).bind (fun ch => ch.delta) = some d ∧
      jsTruthy d.content = true := by
  unfold chunkHasContent at h
  dsimp only at h
  cases hh : c.choices.head? with
  | none =>
    rw [hh] at h
    dsimp only at h
    simp at h
  | some ch =>
    rw [hh] at h
    dsimp only at h
    cases hdel : ch.delta with
    | none =>
      rw [hdel] at h
      dsimp only at h
      simp at h
    | some d =>
      rw [hdel] at h
      dsimp only at h
      refine ⟨d, ?_, h⟩
      simp only [Option.some_bind]
      exact hdel

theorem countRE_zero (l : List StreamEvent)
    (h : ∀ e ∈ l, isReasoningEnd e = false) :
    countReasoningEnd l = 0 := by
  unfold countReasoningEnd
  rw [List.countP_eq_zero]
  intro a ha
  simp [h a ha]

theorem countRE_append (a b : List StreamEvent) :
    countReasoningEnd (a ++ b) =
      countReasoningEnd a + countReasoningEnd b := by
  simp [countReasoningEnd, List.countP_append]

theorem countRE_reTriple (i : String) (md : Option (List ReasoningDetail))
    (tid t : String) (tail : List StreamEvent) :
    countReasoningEnd (StreamEvent.reasoningEnd i md ::
        StreamEvent.textStart tid ::
        StreamEvent.textDelta tid t :: tail) =
      countReasoningEnd tail + 1 := by
  simp [countReasoningEnd, List.countP_cons, isReasoningEnd]

/-- **C2.** For every stream in which reasoning has started and no text
(hence no reasoning-end) has been emitted over a prefix of chunks, when a
chunk with a text content delta and no reasoning content arrives and no
later chunk carries reasoning content, the stream's output contains
exactly one reasoning-end event, it sits immediately before the first
text-start event, and it carries the full accumulated reasoning-detail
list (when non-empty) as its metadata. -/
theorem reasoning_end_emitted_before_first_text_start
    (ctx : ModelCtx) (pre : List ParsedChunk) (c : ParsedChunk)
    (post : List ParsedChunk)
    (h0 : (runChunksFrom ctx initState pre).err = none)
    (h1 : (runChunksFrom ctx initState pre).state.reasoningStarted = true)
    (h2 : (runChunksFrom ctx initState pre).state.textStarted = false)
    (h3 : chunkHasContent c = true)
    (h4 : chunkNoReasoning c = true)
    (h5 : ∀ x ∈ post, chunkNoReasoning x = true) :
    ∃ E1 E2 tid t,
      runStream ctx (pre ++ c :: post) =
        E1 ++ StreamEvent.reasoningEnd
            (jsOrStr (runChunksFrom ctx initState pre).state.reasoningId
              generateId)
            (if (runChunksFrom ctx initState
                  pre).state.accumulatedReasoningDetails.length > 0 then
              some (runChunksFrom ctx initState
                pre).state.accumulatedReasoningDetails
            else none) ::
          StreamEvent.textStart tid ::
          StreamEvent.textDelta tid t :: E2 ∧
      (∀ e ∈ E1, isTextStart e = false) ∧
      countReasoningEnd (runStream ctx (pre ++ c :: post)) = 1 := by
  obtain ⟨cd, rfl⟩ := chunkHasContent_form c h3
  obtain ⟨d, hd, hdc⟩ := chunkHasContent_delta cd h3
  have hdn := chunkNoReasoning_delta cd d h4 hd
  obtain ⟨hpre0, hpreEv⟩ := run_ts_back ctx pre initState h2
  have hXrs : (chunkPreState (runChunksFrom ctx initState pre).state
      cd).reasoningStarted = true :=
    ((chunkPreState_fields _ cd).2.2.1).trans h1
  have hXts : (chunkPreState (runChunksFrom ctx initState pre).state
      cd).textStarted = false :=
    ((chunkPreState_fields _ cd).2.1).trans h2
  obtain ⟨tail, hev, htail, htsA, hrsA⟩ :=
    processDelta_transition ctx
      (chunkPreState (runChunksFrom ctx initState pre).state cd) d
      hdc hdn hXrs hXts
  rw [(chunkPreState_fields (runChunksFrom ctx initState pre).state
        cd).2.2.2.2.1,
      (chunkPreState_fields (runChunksFrom ctx initState pre).state
        cd).2.2.2.1] at hev
  have hcp := processChunk_data_some ctx
    (runChunksFrom ctx initState pre).state cd d hd
  unfold runStream
  rw [runChunksFrom_append ctx pre
    (ParsedChunk.success (ChunkValue.data cd) :: post) initState h0]
  rw [runChunksFrom]
  rw [hcp]
  dsimp only
  cases herr : (processDelta ctx
      (chunkPreState (runChunksFrom ctx initState pre).state cd)
      d).err with
  | some ex =>
    dsimp only
    rw [hev]
    refine ⟨(runChunksFrom ctx initState pre).events ++
        chunkPreEvents ctx cd, tail,
      jsOrStr (chunkPreState (runChunksFrom ctx initState
        pre).state cd).osmResponseId generateId,
      d.content.getD "", ?_, ?_, ?_⟩
    · rw [List.append_assoc]
    · intro e he
      rcases List.mem_append.mp he with ha | hb
      · exact (hpreEv e ha).1
      · exact (chunkPreEvents_props ctx cd e hb).1
    · rw [countRE_append, countRE_append, countRE_reTriple,
        countRE_zero _ (fun e he => (hpreEv e he).2),
        countRE_zero _ (chunkPreEvents_no_re ctx cd),
        countRE_zero tail (fun e he => (htail e he).2)]
  | none =>
    dsimp only
    have hrn := run_noReasoning_rs ctx post h5
      (processDelta ctx
        (chunkPreState (runChunksFrom ctx initState pre).state cd)
        d).state hrsA
    cases herr3 : (runChunksFrom ctx
        (processDelta ctx
          (chunkPreState (runChunksFrom ctx initState pre).state cd)
          d).state post).err with
    | some ex2 =>
      dsimp only
      rw [hev]
      refine ⟨(runChunksFrom ctx initState pre).events ++
          chunkPreEvents ctx cd,
        tail ++ (runChunksFrom ctx
          (processDelta ctx
            (chunkPreState (runChunksFrom ctx initState pre).state cd)
            d).state post).events,
        jsOrStr (chunkPreState (runChunksFrom ctx initState
          pre).state cd).osmResponseId generateId,
        d.content.getD "", ?_, ?_, ?_⟩
      · simp only [List.append_assoc, List.cons_append]
      · intro e he
        rcases List.mem_append.mp he with ha | hb
        · exact (hpreEv e ha).1
        · exact (chunkPreEvents_props ctx cd e hb).1
      · rw [countRE_append, countRE_append, countRE_append,
          countRE_reTriple,
          countRE_zero _ (fun e he => (hpreEv e he).2),
          countRE_zero _ (chunkPreEvents_no_re ctx cd),
          countRE_zero tail (fun e he => (htail e he).2),
          countRE_zero _ hrn.2]
    | none =>
      dsimp only
      rw [hev]
      refine ⟨(runChunksFrom ctx initState pre).events ++
          chunkPreEvents ctx cd,
        tail ++ ((runChunksFrom ctx
          (processDelta ctx
            (chunkPreState (runChunksFrom ctx initState pre).state cd)
            d).state post).events ++
          flushStep ctx (runChunksFrom ctx
            (processDelta ctx
              (chunkPreState (runChunksFrom ctx initState pre).state cd)
              d).state post).state),
        jsOrStr (chunkPreState (runChunksFrom ctx initState
          pre).state cd).osmResponseId generateId,
        d.content.getD "", ?_, ?_, ?_⟩
      · simp only [List.append_assoc, List.cons_append]
      · intro e he
        rcases List.mem_append.mp he with ha | hb
        · exact (hpreEv e ha).1
        · exact (chunkPreEvents_props ctx cd e hb).1
      · rw [countRE_append, countRE_append, countRE_append,
          countRE_append, countRE_reTriple,
          countRE_zero _ (fun e he => (hpreEv e he).2),
          countRE_zero _ (chunkPreEvents_no_re ctx cd),
          countRE_zero tail (fun e he => (htail e he).2),
          countRE_zero _ hrn.2,
          countRE_zero _ (flushStep_no_re_of_rs_false ctx _ hrn.1)]

theorem reasoning_end_emitted_before_first_text_start_witness :
    ∃ E1 E2 tid t,
      runStream c2ctx ([c2reasoningChunk] ++ c2contentChunk :: []) =
        E1 ++ StreamEvent.reasoningEnd
            (jsOrStr (runChunksFrom c2ctx initState
              [c2reasoningChunk]).state.reasoningId generateId)
            (if (runChunksFrom c2ctx initState
                  [c2reasoningChunk]).state.accumulatedReasoningDetails.length
                  > 0 then
              some (runChunksFrom c2ctx initState
                [c2reasoningChunk]).state.accumulatedReasoningDetails
            else none) ::
          StreamEvent.textStart tid ::
          StreamEvent.textDelta tid t :: E2 ∧
      (∀ e ∈ E1, isTextStart e = false) ∧
      countReasoningEnd
        (runStream c2ctx ([c2reasoningChunk] ++ c2contentChunk :: [])) =
        1 :=
  reasoning_end_emitted_before_first_text_start c2ctx [c2reasoningChunk]
    c2contentChunk [] rfl rfl rfl rfl rfl (by simp)
